import Mathlib

set_option maxHeartbeats 1000000

/-!
Verification development for the flat-diff engine of browser-compat-data
(`scripts/diff-flat.ts` and its two sibling variants).  The scripts are
shallowly embedded: JavaScript/JSON values become the inductive `JsonVal`,
the mutable flag/note registries become explicit state, and the relevant
functions (`flattenObject`, `formatFlagIndex`, the value differ, the
grouped-entry sort, registry pruning and `printRefs`) are translated into
executable Lean definitions.  External library behaviour (the `diff`
package's `diffArrays`, `String.localeCompare`, `Intl.Collator`) is
modelled from its documented contract where the scripts call into it; each
such definition carries a doc comment saying so.
-/

/-- A model of the JavaScript/JSON values the diff scripts manipulate.
Numbers are modelled as integers (the compat data contains no fractional
numbers on any path the claims touch).  `undefined` models JavaScript
`undefined`, which is distinct from JSON `null`. -/
inductive JsonVal : Type where
  | str (s : String)
  | num (n : Int)
  | bool (b : Bool)
  | null
  | undefined
  | obj (fields : List (String × JsonVal))
  | arr (elems : List JsonVal)

/-- JavaScript truthiness of a value (used by `filter(Boolean)` and the
`x && y` idioms in the scripts). -/
def JsonVal.truthy : JsonVal → Bool
  | .str s => !s.isEmpty
  | .num n => n != 0
  | .bool b => b
  | .null => false
  | .undefined => false
  | .obj _ => true
  | .arr _ => true

/-- Is the value an object in the JavaScript sense of
`typeof v === 'object' && v !== null` (arrays included)? -/
def JsonVal.isObjLike : JsonVal → Bool
  | .obj _ => true
  | .arr _ => true
  | _ => false

/-- A scalar in the sense of claim C10: anything the flattener may assign
into the result record (string, number, boolean, null or undefined). -/
def JsonVal.isScalar (v : JsonVal) : Bool := !v.isObjLike

/-- The decimal digit character for a digit value (values ≥ 9 clamp to
'9'; all callers pass `n % 10`). -/
def digitChar (d : Nat) : Char :=
  if d = 0 then '0' else if d = 1 then '1' else if d = 2 then '2'
  else if d = 3 then '3' else if d = 4 then '4' else if d = 5 then '5'
  else if d = 6 then '6' else if d = 7 then '7' else if d = 8 then '8'
  else '9'

/-- Worker for `natDigitsRev` with explicit fuel, so the definition is
structurally recursive (kernel-reducible); `fuel = n` always suffices
because the value shrinks by a factor of ten per step. -/
def natDigitsRevFuel : Nat → Nat → List Char
  | 0, _ => []
  | fuel + 1, n =>
    if n = 0 then [] else digitChar (n % 10) :: natDigitsRevFuel fuel (n / 10)

/-- Little-endian decimal digits of a positive number; `[]` for zero. -/
def natDigitsRev (n : Nat) : List Char := natDigitsRevFuel n n

theorem natDigitsRevFuel_irrel : ∀ f1 f2 n : Nat, n ≤ f1 → n ≤ f2 →
    natDigitsRevFuel f1 n = natDigitsRevFuel f2 n := by
  intro f1
  induction f1 with
  | zero =>
    intro f2 n h1 _
    have : n = 0 := by omega
    subst this
    cases f2 <;> simp [natDigitsRevFuel]
  | succ f1' ih =>
    intro f2 n h1 h2
    by_cases hn : n = 0
    · subst hn
      cases f2 <;> simp [natDigitsRevFuel]
    · cases f2 with
      | zero => omega
      | succ f2' =>
        simp only [natDigitsRevFuel, if_neg hn]
        have hd : n / 10 < n := Nat.div_lt_self (Nat.pos_of_ne_zero hn) (by omega)
        rw [ih f2' (n / 10) (by omega) (by omega)]

/-- The recurrence the fueled definition satisfies. -/
theorem natDigitsRev_eq (n : Nat) : natDigitsRev n =
    if n = 0 then [] else digitChar (n % 10) :: natDigitsRev (n / 10) := by
  unfold natDigitsRev
  by_cases hn : n = 0
  · subst hn; simp [natDigitsRevFuel]
  · cases n with
    | zero => omega
    | succ m =>
      rw [if_neg hn]
      simp only [natDigitsRevFuel, if_neg hn]
      have hd : (m + 1) / 10 < m + 1 := Nat.div_lt_self (by omega) (by omega)
      rw [natDigitsRevFuel_irrel m ((m + 1) / 10) ((m + 1) / 10) (by omega) (by omega)]

/-- Decimal digit characters of a natural number, most significant first:
the characters JavaScript produces for `${n}` on a whole number. -/
def natDecChars (n : Nat) : List Char :=
  if n = 0 then ['0'] else (natDigitsRev n).reverse

/-- The decimal string JavaScript produces for `${n}` on a whole number. -/
def natDecStr (n : Nat) : String := String.mk (natDecChars n)

/-- The decimal string JavaScript produces for `${n}` on an integer. -/
def intDecStr (n : Int) : String :=
  if n < 0 then "-" ++ natDecStr n.natAbs else natDecStr n.natAbs

/-- The character list of a flag footnote marker; see `formatFlagIndex`. -/
def flagMarkerChars (index : Nat) : List Char :=
  '[' :: '^' :: 'f' :: (natDecChars (index + 1) ++ [']'])

/-- The character list of a note footnote marker; see `formatNoteIndex`. -/
def noteMarkerChars (index : Nat) : List Char :=
  '[' :: '^' :: 'n' :: (natDecChars (index + 1) ++ [']'])

/-- diff-flat.ts line 62: formats a flag reference as the template string
interpolation of the 1-based index between the fixed bracket frame. -/
def formatFlagIndex (index : Nat) : String := String.mk (flagMarkerChars index)

/-- diff-flat.ts line 69: formats a note reference. -/
def formatNoteIndex (index : Nat) : String := String.mk (noteMarkerChars index)

/-- `Array.prototype.indexOf` specialised to strings, for calls that are
guarded so the element is always present (a missing element, where
JavaScript returns -1, is mapped to the list length). -/
def idxOfStr : List String → String → Nat
  | [], _ => 0
  | x :: rest, s => if x = s then 0 else 1 + idxOfStr rest s

/-- diff-flat.ts lines 107-112: look a serialized flag payload up in the
run-wide registry, appending it if it has not been seen, and produce the
footnote marker for its (first-seen) index. -/
def registerFlag (allFlags : List String) (flagsJson : String) :
    List String × String :=
  let allFlags' := if flagsJson ∈ allFlags then allFlags else allFlags ++ [flagsJson]
  (allFlags', formatFlagIndex (idxOfStr allFlags' flagsJson))

/-- diff-flat.ts lines 119-123: register one serialized note in the
run-wide note registry and return its numeric (0-based) index. -/
def registerNote (allNotes : List String) (notesJson : String) :
    List String × Nat :=
  let allNotes' := if notesJson ∈ allNotes then allNotes else allNotes ++ [notesJson]
  (allNotes', idxOfStr allNotes' notesJson)

/-- Escape of one character inside a JSON string literal (quote and
backslash; control-character escapes are omitted, no claim feeds control
characters to the serializer). -/
def jsonEscapeChar (c : Char) : List Char :=
  if c = '\\' then ['\\', '\\'] else if c = '"' then ['\\', '"'] else [c]

/-- Body of a JSON string literal. -/
def jsonEscape (s : String) : String :=
  String.mk (s.data.foldr (fun c acc => jsonEscapeChar c ++ acc) [])

mutual

/-- `JSON.stringify` on the modelled values.  Deviation: JavaScript maps a
top-level `undefined` to `undefined` (not a string) and omits
`undefined`-valued object fields; the flatten pipeline only ever serializes
values obtained from `JSON.parse`, which contain no `undefined`, so those
cases are mapped to "null" like array elements. -/
def jsonStringify : JsonVal → String
  | .str s => "\"" ++ jsonEscape s ++ "\""
  | .num n => intDecStr n
  | .bool b => if b then "true" else "false"
  | .null => "null"
  | .undefined => "null"
  | .obj fields => "\x7b" ++ String.intercalate "," (jsonStringifyFields fields) ++ "\x7d"
  | .arr elems => "[" ++ String.intercalate "," (jsonStringifyElems elems) ++ "]"

/-- Serialized `"key":value` members of an object. -/
def jsonStringifyFields : List (String × JsonVal) → List String
  | [] => []
  | (k, v) :: rest =>
    ("\"" ++ jsonEscape k ++ "\":" ++ jsonStringify v) :: jsonStringifyFields rest

/-- Serialized elements of an array. -/
def jsonStringifyElems : List JsonVal → List String
  | [] => []
  | v :: rest => jsonStringify v :: jsonStringifyElems rest

end

mutual

/-- JavaScript `String(v)` / template-literal conversion of a value. -/
def jsTemplate : JsonVal → String
  | .str s => s
  | .num n => intDecStr n
  | .bool b => if b then "true" else "false"
  | .null => "null"
  | .undefined => "undefined"
  | .obj _ => "[object Object]"
  | .arr es => String.intercalate "," (jsTemplateElems es)

/-- Elements of `Array.prototype.join(',')`: `null` and `undefined`
render as the empty string inside a join. -/
def jsTemplateElems : List JsonVal → List String
  | [] => []
  | JsonVal.null :: rest => "" :: jsTemplateElems rest
  | JsonVal.undefined :: rest => "" :: jsTemplateElems rest
  | v :: rest => jsTemplate v :: jsTemplateElems rest

end

/-- `Array.prototype.join(sep)` on modelled array elements. -/
def jsArrayJoin (es : List JsonVal) (sep : String) : String :=
  String.intercalate sep (jsTemplateElems es)

/-- diff-flat.ts lines 182-188 (`toArray`): coerce a value to an array
unless it already is one. -/
def toArrayV : JsonVal → List JsonVal
  | .arr es => es
  | v => [v]

/-- First value bound to a key in an object's field list (JavaScript
objects have unique keys; the model tolerates duplicates by taking the
first). -/
def getField? : List (String × JsonVal) → String → Option JsonVal
  | [], _ => none
  | (k, v) :: rest, key => if k = key then some v else getField? rest key

/-- JavaScript property read: a missing property is `undefined`. -/
def getFieldD (fields : List (String × JsonVal)) (key : String) : JsonVal :=
  (getField? fields key).getD .undefined

/-- JavaScript property read on an arbitrary value: only objects carry the
properties the normalizer destructures; on every other value the
destructured names come out `undefined`. -/
def propGet : JsonVal → String → JsonVal
  | .obj fields, key => getFieldD fields key
  | _, _ => .undefined

/-- JavaScript property write `obj[key] = v`: replaces the value in place
when the key exists, appends the key otherwise. -/
def setField : List (String × JsonVal) → String → JsonVal → List (String × JsonVal)
  | [], key, v => [(key, v)]
  | (k, w) :: rest, key, v =>
    if k = key then (k, v) :: rest else (k, w) :: setField rest key v

/-- JavaScript `delete obj[key]`. -/
def deleteField : List (String × JsonVal) → String → List (String × JsonVal)
  | [], _ => []
  | (k, w) :: rest, key => if k = key then rest else (k, w) :: deleteField rest key

mutual

/-- Size measure for the flattening recursion. -/
def JsonVal.sz : JsonVal → Nat
  | .obj fields => 1 + szFields fields
  | .arr elems => 1 + szElems elems
  | _ => 1

/-- Size of an object's field list. -/
def szFields : List (String × JsonVal) → Nat
  | [] => 0
  | (_, v) :: rest => 1 + v.sz + szFields rest

/-- Size of an array's element list. -/
def szElems : List JsonVal → Nat
  | [] => 0
  | v :: rest => 1 + v.sz + szElems rest

end

/-- The run-wide mutable state of one diff invocation: the two footnote
registries (`allFlags` / `allNotes`, diff-flat.ts lines 54-55) and the
flat result record being accumulated. -/
structure FlatState where
  allFlags : List String
  allNotes : List String
  result : List (String × JsonVal)

/-- The two variants of the flattening script that the repository carries:
`main` is scripts/diff-flat.ts, `v3` is the variant in the unnamed source
file (part_000) that carries `version_last`, the mirror-wrapping rule and
the natural-collation sort. -/
inductive Variant where
  | main
  | v3
deriving DecidableEq

/-- diff-flat.ts lines 89-98: collapse the three `status` booleans into a
comma-joined list of the true flag names, writing the string back over the
`status` field.  Destructuring `null` or `undefined` is a JavaScript
`TypeError`, modelled as `none`. -/
def normalizeStatus (fields : List (String × JsonVal)) :
    Option (List (String × JsonVal)) :=
  match getField? fields "status" with
  | none => some fields
  | some sv =>
    match sv with
    | .null => none
    | .undefined => none
    | sv =>
      let parts := [
        (if (propGet sv "deprecated").truthy then some "deprecated" else none),
        (if (propGet sv "standard_track").truthy then some "standard_track" else none),
        (if (propGet sv "experimental").truthy then some "experimental" else none)]
      some (setField fields "status" (.str (String.intercalate "," (parts.filterMap id))))

/-- diff-flat.ts lines 100-102: join the `tags` array with commas.
Calling `.join` on a non-array is a `TypeError`, modelled as `none`. -/
def normalizeTags (fields : List (String × JsonVal)) :
    Option (List (String × JsonVal)) :=
  match getField? fields "tags" with
  | none => some fields
  | some (.arr es) => some (setField fields "tags" (.str (jsArrayJoin es ",")))
  | some _ => none

/-- Comparison result of two character lists by code point. -/
def cmpChars : List Char → List Char → Ordering
  | [], [] => .eq
  | [], _ :: _ => .lt
  | _ :: _, [] => .gt
  | c :: cs, d :: ds => (compare c d).then (cmpChars cs ds)

/-- UTF-16 code-unit "less or equal" of two decimal strings, as
JavaScript's comparator-less sort compares elements (code units and code
points agree on ASCII digits). -/
def decStrLe (a b : Nat) : Prop :=
  cmpChars (natDecStr a).data (natDecStr b).data ≠ .gt

instance (a b : Nat) : Decidable (decStrLe a b) := by
  unfold decStrLe
  infer_instance

/-- The sort JavaScript's comparator-less `Array.prototype.sort()`
performs on the numeric note indices (diff-flat.ts line 126): elements are
compared as their decimal strings, by UTF-16 code units.  A stable
insertion sort with that comparison gives the same result as any
conforming (stable) engine sort. -/
def jsDefaultSortNats (l : List Nat) : List Nat :=
  l.insertionSort decStrLe

/-- diff-flat.ts lines 115-128: register every note of the statement
(scalar coerced to a one-element array) and return the updated registry
together with the raw 0-based index list, in statement order. -/
def noteStep (acc : List String × List Nat) (note : JsonVal) :
    List String × List Nat :=
  let p := registerNote acc.1 (jsonStringify note)
  (p.1, acc.2 ++ [p.2])

def noteIndicesRaw (allNotes : List String) (notes : List JsonVal) :
    List String × List Nat :=
  notes.foldl noteStep (allNotes, [])

/-- diff-flat.ts lines 115-128: the replacement string for a `notes`
field: the registered indices, put through the comparator-less
`Array.prototype.sort()`, formatted as note markers and comma-joined. -/
def processNotes (allNotes : List String) (notes : List JsonVal) :
    List String × String :=
  let p := noteIndicesRaw allNotes notes
  (p.1, String.intercalate ","
    ((jsDefaultSortNats p.2).map formatNoteIndex))

/-- Space-join of the `parts` array after `filter(Boolean)`: `none`
encodes a falsy element (dropped), `some s` a surviving element already
converted to its string form. -/
def partsJoin (parts : List (Option String)) : String :=
  String.intercalate " " (parts.filterMap id)

/-- diff-flat.ts lines 131-151: the composite `version` display string of
the main variant.  `version_added` renders as `<v>+` whenever truthy, and
a truthy `version_removed` contributes a separate `−<v>` part. -/
def composeVersionMain (fields : List (String × JsonVal)) : String :=
  let va := getFieldD fields "version_added"
  let vr := getFieldD fields "version_removed"
  let pim := getFieldD fields "partial_implementation"
  let an := getFieldD fields "alternative_name"
  let pf := getFieldD fields "prefix"
  let fl := getFieldD fields "flags"
  let no := getFieldD fields "notes"
  partsJoin [
    (if va.truthy then some (jsTemplate va ++ "+") else none),
    (if vr.truthy then some ("−" ++ jsTemplate vr) else none),
    (if pim.truthy then some "(partial)" else none),
    (if fl.truthy then some (jsTemplate fl) else none),
    (if pf.truthy then some ("prefix=" ++ jsTemplate pf) else none),
    (if an.truthy then some ("altname=" ++ jsTemplate an) else none),
    (if no.truthy then some (jsTemplate no) else none)]

/-- part_000 lines 391-412: the composite `version` string of the v3
variant.  A string `version_added` renders as `<added>−<last>` when
`version_last` is also a string and as `<added>+` otherwise; a non-string
`version_added` renders as its bare `String(...)` conversion. -/
def composeVersionV3 (fields : List (String × JsonVal)) : String :=
  let va := getFieldD fields "version_added"
  let vl := getFieldD fields "version_last"
  let pim := getFieldD fields "partial_implementation"
  let an := getFieldD fields "alternative_name"
  let pf := getFieldD fields "prefix"
  let fl := getFieldD fields "flags"
  let no := getFieldD fields "notes"
  let first : String :=
    match va with
    | .str s =>
      match vl with
      | .str t => s ++ "−" ++ t
      | _ => s ++ "+"
    | v => jsTemplate v
  partsJoin [
    (if first.isEmpty then none else some first),
    (if pim.truthy then some "(partial)" else none),
    (if fl.truthy then some (jsTemplate fl) else none),
    (if pf.truthy then some ("prefix=" ++ jsTemplate pf) else none),
    (if an.truthy then some ("altname=" ++ jsTemplate an) else none),
    (if no.truthy then some (jsTemplate no) else none)]

/-- diff-flat.ts lines 105-113: substitute a present `flags` payload with
its footnote marker, updating the run-wide flag registry. -/
def substFlags (fields : List (String × JsonVal)) (st : FlatState) :
    List (String × JsonVal) × FlatState :=
  match getField? fields "flags" with
  | some flagsVal =>
    let q := registerFlag st.allFlags (jsonStringify flagsVal)
    (setField fields "flags" (.str q.2), { st with allFlags := q.1 })
  | none => (fields, st)

/-- diff-flat.ts lines 115-129: substitute a present `notes` field with
its comma-joined marker list, updating the run-wide note registry. -/
def substNotes (fields : List (String × JsonVal)) (st : FlatState) :
    List (String × JsonVal) × FlatState :=
  match getField? fields "notes" with
  | some notesVal =>
    let q := processNotes st.allNotes (toArrayV notesVal)
    (setField fields "notes" (.str q.2), { st with allNotes := q.1 })
  | none => (fields, st)

/-- diff-flat.ts lines 152-158 / part_000 lines 415-422: the `delete`
statements that remove the merged fields after `version` is composed (the
v3 variant additionally deletes `version_last`). -/
def deleteMergedFields (var : Variant) (fields : List (String × JsonVal)) :
    List (String × JsonVal) :=
  deleteField (deleteField (deleteField (deleteField (deleteField (deleteField
    (if var = Variant.v3 then
      deleteField (deleteField fields "version_added") "version_last"
    else
      deleteField fields "version_added")
    "version_removed") "partial_implementation") "alternative_name")
    "prefix") "flags") "notes"

/-- diff-flat.ts lines 104-159 / part_000 lines 364-423: when the node
carries `version_added`, substitute the flag payload and the notes with
footnote markers (updating the run-wide registries), compose the single
`version` display string, and delete the merged fields. -/
def normalizeVersion (var : Variant) (fields : List (String × JsonVal))
    (st : FlatState) : List (String × JsonVal) × FlatState :=
  if (getField? fields "version_added").isSome then
    let p1 := substFlags fields st
    let p2 := substNotes p1.1 p1.2
    let composed :=
      match var with
      | .main => composeVersionMain p2.1
      | .v3 => composeVersionV3 p2.1
    (deleteMergedFields var (setField p2.1 "version" (.str composed)), p2.2)
  else (fields, st)

/-- The in-place mutation diff-flat.ts lines 87-159 apply to an
object-valued entry before recursing into it: status merge, tags join,
then the `version_added` merge. -/
def normalizeFields (var : Variant) (fields : List (String × JsonVal))
    (st : FlatState) : Option (List (String × JsonVal) × FlatState) := do
  let f1 ← normalizeStatus fields
  let f2 ← normalizeTags f1
  some (normalizeVersion var f2 st)

/-- Every modelled value has positive size. -/
theorem JsonVal.sz_pos (v : JsonVal) : 1 ≤ v.sz := by
  cases v <;> simp [JsonVal.sz]

/-- Writing a size-1 value over an existing key does not grow the list. -/
theorem szFields_setField_le (fs : List (String × JsonVal)) (k : String)
    (v : JsonVal) (h : (getField? fs k).isSome) (hv : v.sz = 1) :
    szFields (setField fs k v) ≤ szFields fs := by
  induction fs with
  | nil => simp [getField?] at h
  | cons e rest ih =>
    obtain ⟨ke, ve⟩ := e
    by_cases hk : ke = k
    · subst hk
      simp [setField, szFields, hv]
      have := JsonVal.sz_pos ve
      omega
    · simp [setField, hk, szFields]
      simp [getField?, hk] at h
      exact ih h

/-- Writing a fresh key appends it. -/
theorem szFields_setField_none (fs : List (String × JsonVal)) (k : String)
    (v : JsonVal) (h : getField? fs k = none) :
    szFields (setField fs k v) = szFields fs + (1 + v.sz) := by
  induction fs with
  | nil => simp [setField, szFields]
  | cons e rest ih =>
    obtain ⟨ke, ve⟩ := e
    by_cases hk : ke = k
    · simp [getField?, hk] at h
    · simp [setField, hk, szFields]
      simp [getField?, hk] at h
      have := ih h
      omega

/-- A `setField` with a size-1 value grows the list by at most 2. -/
theorem szFields_setField_le2 (fs : List (String × JsonVal)) (k : String)
    (v : JsonVal) (hv : v.sz = 1) :
    szFields (setField fs k v) ≤ szFields fs + 2 := by
  cases h : getField? fs k with
  | none => rw [szFields_setField_none fs k v h, hv]
  | some w =>
    have := szFields_setField_le fs k v (by simp [h]) hv
    omega

/-- Deleting never grows the list. -/
theorem szFields_deleteField_le (fs : List (String × JsonVal)) (k : String) :
    szFields (deleteField fs k) ≤ szFields fs := by
  induction fs with
  | nil => simp [deleteField]
  | cons e rest ih =>
    obtain ⟨ke, ve⟩ := e
    by_cases hk : ke = k
    · simp only [deleteField, if_pos hk, szFields]
      have := JsonVal.sz_pos ve
      omega
    · simp only [deleteField, if_neg hk, szFields]
      omega

/-- Deleting an existing key removes its full contribution. -/
theorem szFields_deleteField_some (fs : List (String × JsonVal)) (k : String)
    (w : JsonVal) (h : getField? fs k = some w) :
    szFields (deleteField fs k) + (1 + w.sz) = szFields fs := by
  induction fs with
  | nil => simp [getField?] at h
  | cons e rest ih =>
    obtain ⟨ke, ve⟩ := e
    by_cases hk : ke = k
    · simp [getField?, hk] at h
      subst h
      simp [deleteField, hk, szFields]
      omega
    · simp [getField?, hk] at h
      simp [deleteField, hk, szFields]
      have := ih h
      omega

/-- `setField` leaves other keys untouched. -/
theorem getField?_setField_ne (fs : List (String × JsonVal)) (k k' : String)
    (v : JsonVal) (hne : k' ≠ k) :
    getField? (setField fs k v) k' = getField? fs k' := by
  induction fs with
  | nil =>
    simp only [setField, getField?]
    rw [if_neg (fun h => hne h.symm)]
  | cons e rest ih =>
    obtain ⟨ke, ve⟩ := e
    by_cases hk : ke = k
    · subst hk
      simp only [setField, if_pos rfl, getField?]
      rw [if_neg (fun h => hne h.symm), if_neg (fun h => hne h.symm)]
    · simp only [setField, if_neg hk, getField?]
      by_cases hk' : ke = k' <;> simp [hk', ih]

/-- The status merge does not grow the field list. -/
theorem szFields_normalizeStatus_le (fs nf : List (String × JsonVal))
    (h : normalizeStatus fs = some nf) : szFields nf ≤ szFields fs := by
  unfold normalizeStatus at h
  cases hg : getField? fs "status" with
  | none =>
    rw [hg] at h
    simp only [Option.some.injEq] at h
    rw [← h]
  | some sv =>
    rw [hg] at h
    cases sv <;> simp only [Option.some.injEq] at h <;>
      first
      | (rw [← h]
         exact szFields_setField_le _ _ _ (by simp [hg]) (by simp [JsonVal.sz]))
      | exact absurd h (by simp)

/-- The tags merge does not grow the field list. -/
theorem szFields_normalizeTags_le (fs nf : List (String × JsonVal))
    (h : normalizeTags fs = some nf) : szFields nf ≤ szFields fs := by
  unfold normalizeTags at h
  cases hg : getField? fs "tags" with
  | none =>
    rw [hg] at h
    simp only [Option.some.injEq] at h
    rw [← h]
  | some tv =>
    rw [hg] at h
    cases tv <;> simp only [Option.some.injEq] at h <;>
      first
      | (rw [← h]
         exact szFields_setField_le _ _ _ (by simp [hg]) (by simp [JsonVal.sz]))
      | exact absurd h (by simp)

/-- The flag substitution writes a string over a present key. -/
theorem szFields_substFlags_le (fs : List (String × JsonVal)) (st : FlatState) :
    szFields (substFlags fs st).1 ≤ szFields fs := by
  unfold substFlags
  cases hg : getField? fs "flags" with
  | none => simp
  | some flagsVal =>
    simp only
    exact szFields_setField_le _ _ _ (by simp [hg]) (by simp [JsonVal.sz])

/-- The flag substitution does not touch other keys. -/
theorem getField?_substFlags_ne (fs : List (String × JsonVal)) (st : FlatState)
    (k' : String) (hne : k' ≠ "flags") :
    getField? (substFlags fs st).1 k' = getField? fs k' := by
  unfold substFlags
  cases hg : getField? fs "flags" with
  | none => simp
  | some flagsVal => simpa using getField?_setField_ne fs "flags" k' _ hne

/-- The note substitution writes a string over a present key. -/
theorem szFields_substNotes_le (fs : List (String × JsonVal)) (st : FlatState) :
    szFields (substNotes fs st).1 ≤ szFields fs := by
  unfold substNotes
  cases hg : getField? fs "notes" with
  | none => simp
  | some notesVal =>
    simp only
    exact szFields_setField_le _ _ _ (by simp [hg]) (by simp [JsonVal.sz])

/-- The note substitution does not touch other keys. -/
theorem getField?_substNotes_ne (fs : List (String × JsonVal)) (st : FlatState)
    (k' : String) (hne : k' ≠ "notes") :
    getField? (substNotes fs st).1 k' = getField? fs k' := by
  unfold substNotes
  cases hg : getField? fs "notes" with
  | none => simp
  | some notesVal => simpa using getField?_setField_ne fs "notes" k' _ hne

/-- Deleting the merged fields undoes the growth from writing `version`:
`version_added` is present before the deletions and contributes at least
2 to the size. -/
theorem szFields_deleteMergedFields (var : Variant)
    (fs : List (String × JsonVal)) (w : JsonVal)
    (h : getField? fs "version_added" = some w) :
    szFields (deleteMergedFields var fs) + 2 ≤ szFields fs := by
  unfold deleteMergedFields
  have hw := JsonVal.sz_pos w
  have h1 := szFields_deleteField_some fs "version_added" w h
  set a2 := (if var = Variant.v3 then
      deleteField (deleteField fs "version_added") "version_last"
    else
      deleteField fs "version_added") with ha2
  have h2 : szFields a2 ≤ szFields (deleteField fs "version_added") := by
    rw [ha2]
    split
    · exact szFields_deleteField_le _ _
    · exact le_refl _
  have h3 := szFields_deleteField_le a2 "version_removed"
  have h4 := szFields_deleteField_le (deleteField a2 "version_removed")
    "partial_implementation"
  have h5 := szFields_deleteField_le (deleteField (deleteField a2
    "version_removed") "partial_implementation") "alternative_name"
  have h6 := szFields_deleteField_le (deleteField (deleteField (deleteField a2
    "version_removed") "partial_implementation") "alternative_name") "prefix"
  have h7 := szFields_deleteField_le (deleteField (deleteField (deleteField
    (deleteField a2 "version_removed") "partial_implementation")
    "alternative_name") "prefix") "flags"
  have h8 := szFields_deleteField_le (deleteField (deleteField (deleteField
    (deleteField (deleteField a2 "version_removed") "partial_implementation")
    "alternative_name") "prefix") "flags") "notes"
  omega

/-- Writing `version` and then deleting the merged fields does not grow a
field list that still carries `version_added`. -/
theorem szFields_versionMergeCore (var : Variant)
    (fs : List (String × JsonVal)) (s : String) (w : JsonVal)
    (h : getField? fs "version_added" = some w) :
    szFields (deleteMergedFields var (setField fs "version" (JsonVal.str s))) ≤
      szFields fs := by
  have hset : szFields (setField fs "version" (JsonVal.str s)) ≤ szFields fs + 2 :=
    szFields_setField_le2 _ _ _ (by simp [JsonVal.sz])
  have hgset : getField? (setField fs "version" (JsonVal.str s))
      "version_added" = some w := by
    rw [getField?_setField_ne _ _ _ _ (by decide)]
    exact h
  have hdel := szFields_deleteMergedFields var _ w hgset
  omega

/-- The full `version_added` merge does not grow the field list. -/
theorem szFields_normalizeVersion_le (var : Variant)
    (fs : List (String × JsonVal)) (st : FlatState) :
    szFields (normalizeVersion var fs st).1 ≤ szFields fs := by
  unfold normalizeVersion
  by_cases hva : (getField? fs "version_added").isSome
  · obtain ⟨va, hva'⟩ := Option.isSome_iff_exists.mp hva
    simp only [hva, if_true]
    have hs1 : szFields (substFlags fs st).1 ≤ szFields fs :=
      szFields_substFlags_le fs st
    have hs2 : szFields (substNotes (substFlags fs st).1 (substFlags fs st).2).1 ≤
        szFields (substFlags fs st).1 :=
      szFields_substNotes_le _ _
    have hg2 : getField?
        (substNotes (substFlags fs st).1 (substFlags fs st).2).1
        "version_added" = some va := by
      rw [getField?_substNotes_ne _ _ _ (by decide),
        getField?_substFlags_ne _ _ _ (by decide)]
      exact hva'
    have hcore := szFields_versionMergeCore var
      (substNotes (substFlags fs st).1 (substFlags fs st).2).1
      (match var with
        | .main => composeVersionMain (substNotes (substFlags fs st).1 (substFlags fs st).2).1
        | .v3 => composeVersionV3 (substNotes (substFlags fs st).1 (substFlags fs st).2).1)
      va hg2
    omega
  · simp [hva]

/-- The whole normalization pass does not grow the field list. -/
theorem szFields_normalizeFields_le (var : Variant)
    (fs nf : List (String × JsonVal)) (st : FlatState) (st' : FlatState)
    (h : normalizeFields var fs st = some (nf, st')) :
    szFields nf ≤ szFields fs := by
  unfold normalizeFields at h
  cases h1 : normalizeStatus fs with
  | none => rw [h1] at h; simp at h
  | some f1 =>
    rw [h1] at h
    simp only [Option.bind_eq_bind, Option.some_bind] at h
    cases h2 : normalizeTags f1 with
    | none => rw [h2] at h; simp at h
    | some f2 =>
      rw [h2] at h
      simp only [Option.bind_eq_bind, Option.some_bind, Option.some.injEq] at h
      have ha := szFields_normalizeStatus_le fs f1 h1
      have hb := szFields_normalizeTags_le f1 f2 h2
      have hc := szFields_normalizeVersion_le var f2 st
      have : nf = (normalizeVersion var f2 st).1 := by
        rw [h]
      have hd : szFields nf = szFields (normalizeVersion var f2 st).1 := by
        rw [this]
      omega

/-- diff-flat.ts lines 42-51: the browser-engine names whose children get
array-coerced and reversed before recursion. -/
def BROWSER_NAMES : List String :=
  ["chrome", "chrome_android", "edge", "firefox", "firefox_android",
   "safari", "safari_ios", "webview_android"]

/-- The fields a `for ... in` loop sees on an array: its elements under
their decimal index keys, ascending. -/
def indexFields : List JsonVal → Nat → List (String × JsonVal)
  | [], _ => []
  | v :: rest, i => (natDecStr i, v) :: indexFields rest (i + 1)

/-- Is the value the string sentinel "mirror"? -/
def isMirrorStr : JsonVal → Bool
  | .str s => s = "mirror"
  | _ => false

/-- Dotted key-path extension (diff-flat.ts line 85). -/
def fullKeyOf (parentKey key : String) : String :=
  if parentKey = "" then key else parentKey ++ "." ++ key

theorem szFields_indexFields (es : List JsonVal) (i : Nat) :
    szFields (indexFields es i) = szElems es := by
  induction es generalizing i with
  | nil => simp [indexFields, szElems, szFields]
  | cons v rest ih => simp [indexFields, szElems, szFields, ih]

theorem szElems_append (a b : List JsonVal) :
    szElems (a ++ b) = szElems a + szElems b := by
  induction a with
  | nil => simp [szElems]
  | cons v rest ih => simp [szElems, ih]; omega

theorem szElems_reverse (es : List JsonVal) :
    szElems es.reverse = szElems es := by
  induction es with
  | nil => rfl
  | cons v rest ih =>
    simp [szElems, List.reverse_cons, szElems_append, ih]
    omega

/-- The tree flattener, diff-flat.ts lines 78-175 / part_000 lines
328-439, with the run-wide registries and the result record threaded as
explicit state.  Each entry of the field list is processed in order:
object-valued entries are normalized in place (`normalizeFields`) and
recursed into; entries under a browser-engine key are array-coerced and
reversed first, so a single statement object reappears under the index
key "0" and — exactly as in the source — is normalized a second time on
that visit (the second pass is inlined here as a direct second
`normalizeFields` call, which is the unfolding of the source's recursion
into the one-element wrapper array).  The v3 variant's rewrite of a
non-`version` `"mirror"` string into `\x7bversion: "mirror"\x7d` is
likewise inlined as the single result entry that flattening the wrapper
object produces.  Scalar values are assigned to the flattened key.
`none` models a runtime `TypeError` escaping the script. -/
def flattenFields (var : Variant) (fs : List (String × JsonVal))
    (parentKey : String) (st : FlatState) : Option FlatState :=
  match fs with
  | [] => some st
  | (key, v0) :: rest =>
    let fullKey := fullKeyOf parentKey key
    if var = Variant.v3 ∧ key ≠ "version" ∧ isMirrorStr v0 = true then
      let assignedKey :=
        if BROWSER_NAMES.contains key then fullKey ++ ".0.version"
        else fullKey ++ ".version"
      flattenFields var rest parentKey
        { st with result := st.result ++ [(assignedKey, JsonVal.str "mirror")] }
    else
      match v0 with
      | .obj fields =>
        match hn : normalizeFields var fields st with
        | none => none
        | some (nf, st1) =>
          if BROWSER_NAMES.contains key then
            match hn2 : normalizeFields var nf st1 with
            | none => none
            | some (nf2, st2) =>
              match flattenFields var nf2 (fullKey ++ ".0") st2 with
              | none => none
              | some st3 => flattenFields var rest parentKey st3
          else
            match flattenFields var nf fullKey st1 with
            | none => none
            | some st2 => flattenFields var rest parentKey st2
      | .arr elems =>
        let target :=
          if BROWSER_NAMES.contains key then indexFields elems.reverse 0
          else indexFields elems 0
        match flattenFields var target fullKey st with
        | none => none
        | some st2 => flattenFields var rest parentKey st2
      | v =>
        flattenFields var rest parentKey
          { st with result := st.result ++ [(fullKey, v)] }
termination_by szFields fs
decreasing_by
  · simp only [szFields]
    have := JsonVal.sz_pos v
    omega
  · rename_i _hno fields _hB
    have ha := szFields_normalizeFields_le var fields nf st st1 hn
    have hb := szFields_normalizeFields_le var nf nf2 st1 st2 hn2
    simp only [szFields, JsonVal.sz]
    omega
  · rename_i _hno fields _hB
    simp only [szFields, JsonVal.sz]
    omega
  · rename_i _hno fields _hB
    have ha := szFields_normalizeFields_le var fields nf st st1 hn
    simp only [szFields, JsonVal.sz]
    omega
  · rename_i _hno fields _hB
    simp only [szFields, JsonVal.sz]
    omega
  · rename_i _hno elems
    simp only [szFields, JsonVal.sz]
    split
    · rw [szFields_indexFields, szElems_reverse]
      omega
    · rw [szFields_indexFields]
      omega
  · rename_i _hno elems
    simp only [szFields, JsonVal.sz]
    omega
  · rename_i _hno x
    simp only [szFields]
    have := JsonVal.sz_pos x
    omega

/-- Entry point `flattenObject(obj, '', {})`: iterate the top-level keys
of the parsed file contents (a `for ... in` loop over a non-object visits
nothing). -/
def flattenObject (var : Variant) (v : JsonVal) (st : FlatState) :
    Option FlatState :=
  match v with
  | .obj fields => flattenFields var fields "" st
  | .arr elems => flattenFields var (indexFields elems 0) "" st
  | _ => some st

/-- One output chunk of the external diff library's `diffArrays`: a run of
tokens, flagged as removed (present only in the old sequence), added
(present only in the new sequence), or neither (common). -/
structure DiffPart where
  value : List String
  added : Bool
  removed : Bool

/-- Does the split regular expression of diff-flat.ts line 335 match just
before this character (`(?=[[,/ ])`)? -/
def isSplitBefore (c : Char) : Bool :=
  c == '[' || c == ',' || c == '/' || c == ' '

/-- Does it match just after this character (`(?<=[\],/ ])`)? -/
def isSplitAfter (c : Char) : Bool :=
  c == ']' || c == ',' || c == '/' || c == ' '

/-- Worker for `splitTokens`: walks the remaining characters carrying the
previous character, the current position, the total length and whether
the string starts with a double quote, cutting a token at every position
the regular expression `(?<=^")|(?<=[\],/ ])|(?=[[,/ ])|(?="$)` matches. -/
def splitWalk (n : Nat) (fq : Bool) : List Char → Char → Nat → List Char →
    List String → List String
  | [], _, _, cur, acc => acc ++ [String.mk cur.reverse]
  | c :: cs, prev, i, cur, acc =>
    if (i == 1 && fq) || isSplitAfter prev || isSplitBefore c ||
        (i + 1 == n && c == '"') then
      splitWalk n fq cs c (i + 1) [c] (acc ++ [String.mk cur.reverse])
    else
      splitWalk n fq cs c (i + 1) (c :: cur) acc

/-- `value.split(splitRegexp)` of diff-flat.ts lines 335-338: the
tokenization both serialized values go through before the token diff. -/
def splitTokens (s : String) : List String :=
  match s.data with
  | [] => [""]
  | c0 :: rest => splitWalk s.data.length (c0 == '"') rest c0 1 [c0] []

/-- Strip the common prefix of two token lists; returns the prefix and the
two remainders. -/
def commonPrefixL : List String → List String →
    List String × List String × List String
  | x :: xs, y :: ys =>
    if x = y then
      let p := commonPrefixL xs ys
      (x :: p.1, p.2.1, p.2.2)
    else ([], x :: xs, y :: ys)
  | xs, ys => ([], xs, ys)

/-- Modelled from the spec: the external `diff` package's
`diffArrays(old, new)`.  The model peels the common prefix and suffix and
emits the remainders as one removed-then-added hunk, which is the
documented output shape (token runs flagged removed/added/common, removed
before added inside a hunk, non-added runs concatenating to the old
sequence and non-removed runs to the new one).  For inputs whose aligned
difference is a single hunk — every concrete input evaluated in this file —
this coincides with the library's minimal diff. -/
def diffArraysCore (pre o2 n2 suf : List String) : List DiffPart :=
  (if pre.isEmpty then [] else [⟨pre, false, false⟩]) ++
  (if o2.isEmpty then [] else [⟨o2, false, true⟩]) ++
  (if n2.isEmpty then [] else [⟨n2, true, false⟩]) ++
  (if suf.isEmpty then [] else [⟨suf, false, false⟩])

def diffArrays (old new : List String) : List DiffPart :=
  let p := commonPrefixL old new
  let q := commonPrefixL p.2.1.reverse p.2.2.reverse
  diffArraysCore p.1 q.2.1.reverse q.2.2.reverse q.1.reverse

/-- chalk's green styling as emitted in plain-text mode; chalk returns the
empty string unstyled. -/
def chalkGreen (s : String) : String :=
  if s = "" then "" else "\x1b[32m" ++ s ++ "\x1b[39m"

/-- chalk's red styling as emitted in plain-text mode. -/
def chalkRed (s : String) : String :=
  if s = "" then "" else "\x1b[31m" ++ s ++ "\x1b[39m"

/-- diff-flat.ts lines 340-355 (plain-text mode): render the diff parts in
sequence — removed parts (the head-side tokens, because the call passes
the head tokens as the library's old sequence) in green, added parts (the
base-side tokens) in red, common parts unstyled — and concatenate with no
separator. -/
def renderDiffParts (parts : List DiffPart) : String :=
  String.join (parts.map (fun part =>
    let value := String.join part.value
    if part.removed then chalkGreen value
    else if part.added then chalkRed value
    else value))

/-- diff-flat.ts lines 332-333 (`hasValue`): booleans are always relevant;
otherwise a value is relevant when truthy and not the sentinel "mirror". -/
def hasValue : JsonVal → Bool
  | .bool _ => true
  | .str s => !s.isEmpty && s != "mirror"
  | v => v.truthy

/-- `JSON.stringify(flatValue ?? null)` (diff-flat.ts lines 313-314). -/
def jsonStringifyD (v : Option JsonVal) : String :=
  jsonStringify (v.getD .null)

/-- The per-key change display of the main variant (diff-flat.ts lines
312-362): `none` when the key is skipped (equal serializations or an
empty rendered diff), otherwise the rendered value diff.  The head token
list is passed to `diffArrays` as the old sequence and the base token
list as the new sequence. -/
def changeValueMain (bv hv : Option JsonVal) : Option String :=
  let baseValue := jsonStringifyD bv
  let headValue := jsonStringifyD hv
  if baseValue = headValue then none
  else
    let headFD := if hasValue (hv.getD .null) then headValue else ""
    let baseFD := if hasValue (bv.getD .null) then baseValue else ""
    let value := renderDiffParts (diffArrays (splitTokens headFD) (splitTokens baseFD))
    if value = "" then none else some value

/-- The per-key change display of the v3 variant (part_000 lines
586-641): the scalar-sentinel special cases blank the sides directly — a
`null` base blanks the base side and additionally blanks the head side
when it is the serialized string "mirror" or "false"; a `null` head (with
non-null base) blanks the head side. -/
def changeValueV3 (bv hv : Option JsonVal) : Option String :=
  let baseValue := jsonStringifyD bv
  let headValue := jsonStringifyD hv
  if baseValue = headValue then none
  else
    let p : String × String :=
      if baseValue = "null" then
        (if headValue = "\"mirror\"" || headValue = "\"false\"" then ("", "")
         else ("", headValue))
      else if headValue = "null" then (baseValue, "")
      else (baseValue, headValue)
    let value := renderDiffParts (diffArrays (splitTokens p.2) (splitTokens p.1))
    if value = "" then none else some value

/-- The per-key change display of the arrow variant (part_001 lines
196-233): the base value in red and the head value in green, joined with
an explicit arrow, each side dropped when not relevant. -/
def changeValueArrow (bv hv : Option JsonVal) : Option String :=
  let baseValue := jsonStringifyD bv
  let headValue := jsonStringifyD hv
  if baseValue = headValue then none
  else
    let oldValue := if hasValue (bv.getD .null) then some (chalkRed baseValue) else none
    let newValue := if hasValue (hv.getD .null) then some (chalkGreen headValue) else none
    let value := String.intercalate " → " ([oldValue, newValue].filterMap id)
    if value = "" then none else some value

/-- Drop the remainder of an ANSI escape sequence up to and including the
terminating `m`. -/
def dropSGR : List Char → List Char
  | [] => []
  | 'm' :: rest => rest
  | _ :: rest => dropSGR rest

theorem length_dropSGR_le (cs : List Char) : (dropSGR cs).length ≤ cs.length := by
  induction cs with
  | nil => simp [dropSGR]
  | cons c rest ih =>
    by_cases hc : c = 'm'
    · subst hc; simp [dropSGR]
    · rw [show dropSGR (c :: rest) = dropSGR rest by
        cases c <;> simp_all [dropSGR]]
      simp only [List.length_cons]
      omega

/-- Modelled from the spec: the `strip-ansi` package, restricted to the
SGR color sequences chalk emits (`ESC [ ... m`).  Structurally recursive
on an explicit fuel bounded by the length; `fuel = cs.length` always
suffices because each step consumes at least one character. -/
def stripAnsiFuel : Nat → List Char → List Char
  | 0, _ => []
  | fuel + 1, cs =>
    match cs with
    | [] => []
    | '\x1b' :: '[' :: rest2 => stripAnsiFuel fuel (dropSGR rest2)
    | c :: rest => c :: stripAnsiFuel fuel rest

/-- `stripAnsi` on a character list. -/
def stripAnsiL (cs : List Char) : List Char := stripAnsiFuel cs.length cs

/-- `stripAnsi(s)`. -/
def stripAnsi (s : String) : String := String.mk (stripAnsiL s.data)

/-- Modelled from the spec: `String.prototype.localeCompare` with the
default locale, restricted to code-point comparison.  The sort keys the
main variant compares are digit strings and ASCII feature paths, on which
the ICU default collation and code-point order agree. -/
def localeCompareModel (a b : String) : Ordering := cmpChars a.data b.data

/-- diff-flat.ts lines 196-197 (`stripAnsiCompare`): compare two strings
ignoring ANSI escape codes. -/
def stripAnsiCompare (a b : String) : Ordering :=
  localeCompareModel (stripAnsi a) (stripAnsi b)

theorem length_dropWhile_le (p : Char → Bool) (l : List Char) :
    (l.dropWhile p).length ≤ l.length := by
  induction l with
  | nil => simp
  | cons c rest ih =>
    rw [List.dropWhile_cons]
    split
    · simp only [List.length_cons]
      omega
    · simp

/-- Numeric value of a digit run. -/
def digitsToNat (run : List Char) : Nat :=
  run.foldl (fun acc c => acc * 10 + (c.toNat - 48)) 0

/-- Tokens of the natural collation: maximal digit runs as their numeric
value, other characters case-folded.  Structurally recursive on an
explicit fuel bounded by the length (a digit run consumes at least one
character per step). -/
def collTokensFuel : Nat → List Char → List (Nat ⊕ Char)
  | 0, _ => []
  | fuel + 1, cs =>
    match cs with
    | [] => []
    | c :: rest =>
      if c.isDigit then
        Sum.inl (digitsToNat ((c :: rest).takeWhile Char.isDigit)) ::
          collTokensFuel fuel ((c :: rest).dropWhile Char.isDigit)
      else
        Sum.inr c.toLower :: collTokensFuel fuel rest

/-- The collation token list of a string's characters. -/
def collTokens (cs : List Char) : List (Nat ⊕ Char) :=
  collTokensFuel cs.length cs

/-- Comparison of collation token lists: digit runs compare numerically,
other characters by (case-folded) code point, and a number orders before
a letter as in the root collation. -/
def collCmp : List (Nat ⊕ Char) → List (Nat ⊕ Char) → Ordering
  | [], [] => .eq
  | [], _ :: _ => .lt
  | _ :: _, [] => .gt
  | .inl m :: ts, .inl n :: us => (compare m n).then (collCmp ts us)
  | .inr c :: ts, .inr d :: us => (compare c d).then (collCmp ts us)
  | .inl _ :: _, .inr _ :: _ => .lt
  | .inr _ :: _, .inl _ :: _ => .gt

/-- Modelled from the spec: `Intl.Collator(undefined, numeric: true,
sensitivity: "base")` — the natural, case-insensitive, numeric-aware
collation of part_000 lines 694-698. -/
def naturalCompare (a b : String) : Ordering :=
  collCmp (collTokens a.data) (collTokens b.data)

/-- The sort key of one merged entry `(valuesJson, keys)`: the first
group key (`a.at(0)`), ANSI-stripped.  Merged entries always carry at
least one key; the `headD` default models the `as string` cast. -/
def entrySortKey (e : String × List String) : String :=
  stripAnsi (e.2.headD "")

/-- part_000 lines 693-705: the final ordering of value-grouped mode in
the v3 variant — a stable sort of the merged entries by the natural
collation of their first group key.  (`List.insertionSort` is a stable
sort, hence produces the order a conforming `Array.prototype.sort`
yields with this comparator.) -/
def sortEntriesV3 (entries : List (String × List String)) :
    List (String × List String) :=
  entries.insertionSort
    (fun e1 e2 => naturalCompare (entrySortKey e1) (entrySortKey e2) ≠ .gt)

/-- diff-flat.ts lines 415-419: the final ordering of value-grouped mode
in the main variant — a stable sort by `stripAnsiCompare`, i.e. plain
`localeCompare` with no numeric option. -/
def sortEntriesMain (entries : List (String × List String)) :
    List (String × List String) :=
  entries.insertionSort
    (fun e1 e2 => stripAnsiCompare (e1.2.headD "") (e2.2.headD "") ≠ .gt)

/-- `pat` occurs as a substring of `s` (JavaScript `String.includes`). -/
def strContains (s pat : String) : Bool := decide (List.IsInfix pat.data s.data)

/-- Worker for `pruneRegistry`, carrying the current index. -/
def pruneRegistryAux (json : String) (fmt : Nat → String) :
    List String → Nat → List String
  | [], _ => []
  | content :: rest, i =>
    (if strContains json (fmt i) then content else "") ::
      pruneRegistryAux json fmt rest (i + 1)

/-- diff-flat.ts lines 427-436: blank (set to the empty string) every
registry entry whose marker does not occur in the serialized final
output; entries are overwritten in place, never removed, so every other
entry keeps its position. -/
def pruneRegistry (reg : List String) (json : String) (fmt : Nat → String) :
    List String :=
  pruneRegistryAux json fmt reg 0

/-- Worker for `printRefsLines`, carrying the current index. -/
def refLinesAux (fmt : Nat → String) (inputs : List String) :
    List String → Nat → List String
  | [], _ => []
  | content :: rest, i =>
    (if inputs.any (fun input => strContains input (fmt i))
     then [fmt i ++ ": " ++ content] else []) ++
      refLinesAux fmt inputs rest (i + 1)

/-- diff-flat.ts lines 442-455 (`printRefs`): the footnote lines printed
after a block — one line `ref: content` for every flag entry whose marker
occurs in one of the block's inputs, then likewise for notes. -/
def printRefsLines (allFlags allNotes : List String) (inputs : List String) :
    List String :=
  refLinesAux formatFlagIndex inputs allFlags 0 ++
    refLinesAux formatNoteIndex inputs allNotes 0

/-- Outcome of one changed-file status in the strict variants
(diff-flat.ts lines 268-279, part_001 lines 161-172). -/
inductive StrictAction where
  | warn (msg : String)
  | diffFile

/-- diff-flat.ts lines 268-279: `A` and `D` statuses produce a console
warning and skip the file; everything else is diffed. -/
def strictFileAction (value : String) : StrictAction :=
  if value = "A" then .warn "diff:flat doesn\x27t support file additions yet!"
  else if value = "D" then .warn "diff:flat doesn\x27t support file deletions yet!"
  else .diffFile

/-- The change lines a file contributes in the strict variants: none when
the status was warned about, the diffed lines otherwise. -/
def strictFileChanges (value : String) (changes : List String) : List String :=
  match strictFileAction value with
  | .warn _ => []
  | .diffFile => changes

/-- part_000 lines 529-538: the permissive variant substitutes an empty
object for the missing side of an added (`A`) or deleted (`D`) file and
still diffs it. -/
def permissiveContents (value : String) (baseParsed headParsed : JsonVal) :
    JsonVal × JsonVal :=
  (if value ≠ "A" then baseParsed else .obj [],
   if value ≠ "D" then headParsed else .obj [])

/-- Every digit character is a digit. -/
theorem digitChar_isDigit (d : Nat) : (digitChar d).isDigit = true := by
  unfold digitChar
  split_ifs <;> decide

/-- The digit value of `digitChar d` recovers `d` when `d < 10`. -/
theorem digitChar_val (d : Nat) (h : d < 10) : (digitChar d).toNat - 48 = d := by
  unfold digitChar
  interval_cases d <;> decide

/-- Numeric value of a little-endian digit list. -/
def valOfRev : List Char → Nat
  | [] => 0
  | c :: rest => (c.toNat - 48) + 10 * valOfRev rest

theorem valOfRev_natDigitsRev (n : Nat) : valOfRev (natDigitsRev n) = n := by
  induction n using Nat.strong_induction_on with
  | _ n ih =>
    rw [natDigitsRev_eq]
    by_cases h : n = 0
    · simp [h, valOfRev]
    · rw [if_neg h]
      rw [valOfRev]
      rw [ih (n / 10) (Nat.div_lt_self (Nat.pos_of_ne_zero h) (by omega))]
      rw [digitChar_val (n % 10) (Nat.mod_lt _ (by omega))]
      omega

theorem natDigitsRev_digits (n : Nat) :
    ∀ c ∈ natDigitsRev n, c.isDigit = true := by
  induction n using Nat.strong_induction_on with
  | _ n ih =>
    rw [natDigitsRev_eq]
    by_cases h : n = 0
    · simp [h]
    · rw [if_neg h]
      intro c hc
      rcases List.mem_cons.mp hc with h1 | h1
      · rw [h1]; exact digitChar_isDigit _
      · exact ih (n / 10) (Nat.div_lt_self (Nat.pos_of_ne_zero h) (by omega)) c h1

theorem natDecChars_digits (n : Nat) :
    ∀ c ∈ natDecChars n, c.isDigit = true := by
  unfold natDecChars
  by_cases h : n = 0
  · simp [h]
  · rw [if_neg h]
    intro c hc
    exact natDigitsRev_digits n c (List.mem_reverse.mp hc)

theorem natDecChars_ne_nil (n : Nat) : natDecChars n ≠ [] := by
  unfold natDecChars
  by_cases h : n = 0
  · simp [h]
  · rw [if_neg h]
    intro hcon
    have : natDigitsRev n = [] := by
      have := congrArg List.reverse hcon
      simpa using this
    rw [natDigitsRev_eq, if_neg h] at this
    exact List.cons_ne_nil _ _ this

theorem natDecChars_inj (m n : Nat) (h : natDecChars m = natDecChars n) :
    m = n := by
  unfold natDecChars at h
  by_cases hm : m = 0 <;> by_cases hn : n = 0
  · omega
  · rw [if_pos hm, if_neg hn] at h
    have hrev : natDigitsRev n = ['0'] := by
      have := congrArg List.reverse h
      simpa using this.symm
    have := valOfRev_natDigitsRev n
    rw [hrev] at this
    simp [valOfRev] at this
    omega
  · rw [if_neg hm, if_pos hn] at h
    have hrev : natDigitsRev m = ['0'] := by
      have := congrArg List.reverse h
      simpa using this
    have := valOfRev_natDigitsRev m
    rw [hrev] at this
    simp [valOfRev] at this
    omega
  · rw [if_neg hm, if_neg hn] at h
    have hrev : natDigitsRev m = natDigitsRev n := by
      have := congrArg List.reverse h
      simpa using this
    have h1 := valOfRev_natDigitsRev m
    have h2 := valOfRev_natDigitsRev n
    rw [hrev] at h1
    omega

/-- Cancelling digit runs before a closing bracket: if two digit runs
followed by `]` agree as lists, the runs and the remainders agree. -/
theorem digits_bracket_cancel (ds : List Char) :
    ∀ (es t u : List Char), (∀ x ∈ ds, x.isDigit = true) →
    (∀ x ∈ es, x.isDigit = true) →
    ds ++ ']' :: t = es ++ ']' :: u → ds = es ∧ t = u := by
  induction ds with
  | nil =>
    intro es t u _ he h
    cases es with
    | nil => simpa using h
    | cons e es' =>
      simp only [List.nil_append, List.cons_append, List.cons.injEq] at h
      have : e.isDigit = true := he e (List.mem_cons_self _ _)
      rw [← h.1] at this
      simp [Char.isDigit] at this
  | cons d ds' ih =>
    intro es t u hd he h
    cases es with
    | nil =>
      simp only [List.cons_append, List.nil_append, List.cons.injEq] at h
      have : d.isDigit = true := hd d (List.mem_cons_self _ _)
      rw [h.1] at this
      simp [Char.isDigit] at this
    | cons e es' =>
      simp only [List.cons_append, List.cons.injEq] at h
      obtain ⟨hde, h'⟩ := h
      have := ih es' t u (fun x hx => hd x (List.mem_cons_of_mem _ hx))
        (fun x hx => he x (List.mem_cons_of_mem _ hx)) h'
      exact ⟨by rw [hde, this.1], this.2⟩

/-- A bracket-framed marker is an infix of another marker with the same
letter only when the digit runs agree. -/
theorem marker_frame_infix (c : Char) (hc : c ≠ '[') (ds es : List Char)
    (hd : ∀ x ∈ ds, x.isDigit = true) (he : ∀ x ∈ es, x.isDigit = true)
    (h : List.IsInfix ('[' :: '^' :: c :: (ds ++ [']']))
      ('[' :: '^' :: c :: (es ++ [']']))) : ds = es := by
  obtain ⟨s, t, hst⟩ := h
  cases s with
  | nil =>
    simp only [List.nil_append, List.cons_append, List.cons.injEq] at hst
    have h' : ds ++ ']' :: t = es ++ ']' :: [] := by
      have := hst.2.2.2
      simpa [List.append_assoc] using this
    exact (digits_bracket_cancel ds es t [] hd he h').1
  | cons a s' =>
    simp only [List.cons_append, List.cons.injEq] at hst
    obtain ⟨ha, hst'⟩ := hst
    have hmem : '[' ∈ s' ++ ('[' :: '^' :: c :: (ds ++ [']'])) ++ t := by
      simp
    rw [hst'] at hmem
    simp only [List.mem_cons, List.mem_append, List.mem_singleton] at hmem
    rcases hmem with h1 | h1 | h1 | h1
    · exact absurd h1 (by decide)
    · exact absurd h1.symm hc
    · have := he '[' h1
      simp [Char.isDigit] at this
    · exact absurd h1 (by decide)

/-- Equality of bracket-framed markers with the same letter forces the
digit runs to agree. -/
theorem marker_frame_eq (c : Char) (ds es : List Char)
    (h : ('[' :: '^' :: c :: (ds ++ [']'])) = ('[' :: '^' :: c :: (es ++ [']']))) :
    ds = es := by
  simp only [List.cons.injEq, true_and] at h
  exact List.append_cancel_right h

/-- Claim C9 helper: two flag markers with distinct indices are distinct
and not infixes of one another. -/
theorem flagMarker_not_infix (i j : Nat) (hij : i ≠ j) :
    ¬ List.IsInfix (flagMarkerChars i) (flagMarkerChars j) := by
  intro h
  have := marker_frame_infix 'f' (by decide) (natDecChars (i + 1))
    (natDecChars (j + 1)) (natDecChars_digits _) (natDecChars_digits _) h
  have := natDecChars_inj _ _ this
  omega

theorem noteMarker_not_infix (i j : Nat) (hij : i ≠ j) :
    ¬ List.IsInfix (noteMarkerChars i) (noteMarkerChars j) := by
  intro h
  have := marker_frame_infix 'n' (by decide) (natDecChars (i + 1))
    (natDecChars (j + 1)) (natDecChars_digits _) (natDecChars_digits _) h
  have := natDecChars_inj _ _ this
  omega

/-- C9: for distinct indices the pruning markers `[^f<i+1>]` (and
`[^n<i+1>]`) are distinct strings and neither occurs as a substring of
the other, so the `includes` test of the pruning loop (diff-flat.ts lines
427-436) cannot confuse two registry indices. -/
theorem c9_marker_distinctness (i j : Nat) (hij : i ≠ j) :
    formatFlagIndex i ≠ formatFlagIndex j ∧
    ¬ List.IsInfix (formatFlagIndex i).data (formatFlagIndex j).data ∧
    formatNoteIndex i ≠ formatNoteIndex j ∧
    ¬ List.IsInfix (formatNoteIndex i).data (formatNoteIndex j).data := by
  refine ⟨?_, ?_, ?_, ?_⟩
  · intro h
    have hd : flagMarkerChars i = flagMarkerChars j := congrArg String.data h
    have := natDecChars_inj _ _ (marker_frame_eq 'f' _ _ hd)
    omega
  · exact flagMarker_not_infix i j hij
  · intro h
    have hd : noteMarkerChars i = noteMarkerChars j := congrArg String.data h
    have := natDecChars_inj _ _ (marker_frame_eq 'n' _ _ hd)
    omega
  · exact noteMarker_not_infix i j hij

/-- Witness for C9 at the concrete indices 0 and 10 (whose markers
`[^f1]` and `[^f11]` share a long prefix). -/
theorem c9_marker_distinctness_witness :
    formatFlagIndex 0 ≠ formatFlagIndex 10 ∧
    ¬ List.IsInfix (formatFlagIndex 0).data (formatFlagIndex 10).data ∧
    formatNoteIndex 0 ≠ formatNoteIndex 10 ∧
    ¬ List.IsInfix (formatNoteIndex 0).data (formatNoteIndex 10).data :=
  c9_marker_distinctness 0 10 (by decide)

/-- The sequence of flag registrations one diff run performs, starting
from a given registry state: every statement's serialized flag payload is
fed through `registerFlag` in order, collecting the produced markers. -/
def runFlagsFrom (reg : List String) : List String → List String × List String
  | [] => (reg, [])
  | p :: ps =>
    let q := registerFlag reg p
    let r := runFlagsFrom q.1 ps
    (r.1, q.2 :: r.2)

/-- A whole run's flag registrations, from the empty registry the process
starts with (diff-flat.ts line 54). -/
def runFlags (ps : List String) : List String × List String :=
  runFlagsFrom [] ps

theorem registerFlag_registry (reg : List String) (p : String) :
    (registerFlag reg p).1 = if p ∈ reg then reg else reg ++ [p] := rfl

theorem registerFlag_mem (reg : List String) (p : String) :
    p ∈ (registerFlag reg p).1 := by
  rw [registerFlag_registry]
  split
  · assumption
  · simp

theorem idxOfStr_append_of_mem (reg : List String) (l : List String)
    (p : String) (h : p ∈ reg) : idxOfStr (reg ++ l) p = idxOfStr reg p := by
  induction reg with
  | nil => simp at h
  | cons x rest ih =>
    by_cases hx : x = p
    · simp [idxOfStr, hx]
    · rcases List.mem_cons.mp h with h1 | h1
      · exact absurd h1.symm hx
      · simp [idxOfStr, hx, ih h1]

theorem runFlagsFrom_prefix (ps : List String) :
    ∀ reg, ∃ ext, (runFlagsFrom reg ps).1 = reg ++ ext := by
  induction ps with
  | nil => intro reg; exact ⟨[], by simp [runFlagsFrom]⟩
  | cons p ps ih =>
    intro reg
    obtain ⟨ext, hext⟩ := ih (registerFlag reg p).1
    rw [registerFlag_registry] at hext
    by_cases hp : p ∈ reg
    · rw [if_pos hp] at hext
      exact ⟨ext, by simp [runFlagsFrom, registerFlag_registry, hp, hext]⟩
    · rw [if_neg hp] at hext
      refine ⟨[p] ++ ext, ?_⟩
      simp only [runFlagsFrom]
      rw [registerFlag_registry, if_neg hp, hext, List.append_assoc]

theorem runFlagsFrom_mem (ps : List String) :
    ∀ reg s, s ∈ (runFlagsFrom reg ps).1 ↔ s ∈ reg ∨ s ∈ ps := by
  induction ps with
  | nil => intro reg s; simp [runFlagsFrom]
  | cons p ps ih =>
    intro reg s
    simp only [runFlagsFrom]
    rw [ih]
    rw [registerFlag_registry]
    by_cases hp : p ∈ reg
    · rw [if_pos hp]
      constructor
      · rintro (h | h)
        · exact Or.inl h
        · exact Or.inr (List.mem_cons_of_mem _ h)
      · rintro (h | h)
        · exact Or.inl h
        · rcases List.mem_cons.mp h with h1 | h1
          · exact Or.inl (h1 ▸ hp)
          · exact Or.inr h1
    · rw [if_neg hp]
      simp only [List.mem_append, List.mem_singleton, List.mem_cons]
      tauto

theorem runFlagsFrom_nodup (ps : List String) :
    ∀ reg, reg.Nodup → (runFlagsFrom reg ps).1.Nodup := by
  induction ps with
  | nil => intro reg h; simpa [runFlagsFrom] using h
  | cons p ps ih =>
    intro reg h
    simp only [runFlagsFrom]
    apply ih
    rw [registerFlag_registry]
    by_cases hp : p ∈ reg
    · rwa [if_pos hp]
    · rw [if_neg hp]
      simp [List.nodup_append, h, hp]

theorem runFlagsFrom_markers (ps : List String) :
    ∀ reg, (runFlagsFrom reg ps).2.length = ps.length ∧
      ∀ k, k < ps.length → (runFlagsFrom reg ps).2.getD k "" =
        formatFlagIndex (idxOfStr (runFlagsFrom reg ps).1 (ps.getD k "")) := by
  induction ps with
  | nil => intro reg; simp [runFlagsFrom]
  | cons p ps ih =>
    intro reg
    obtain ⟨ihlen, ihget⟩ := ih (registerFlag reg p).1
    constructor
    · simp [runFlagsFrom, ihlen]
    · intro k hk
      cases k with
      | zero =>
        simp only [runFlagsFrom, List.getD_cons_zero]
        obtain ⟨ext, hext⟩ := runFlagsFrom_prefix ps (registerFlag reg p).1
        rw [hext, idxOfStr_append_of_mem _ _ _ (registerFlag_mem reg p)]
        rfl
      | succ k' =>
        simp only [runFlagsFrom, List.getD_cons_succ]
        exact ihget k' (by simpa using hk)

/-- C5: in any run, feeding the same serialized flag payload through the
registry twice (from any two statements, in any positions) leaves exactly
one registry entry for that payload, and both statements receive the
identical footnote marker, namely `[^f<i+1>]` for the payload's first-seen
registry index `i`. -/
theorem c5_flag_dedup (ps : List String) (i j : Nat)
    (hi : i < ps.length) (hj : j < ps.length)
    (hsame : ps.getD i "" = ps.getD j "") :
    (runFlags ps).1.count (ps.getD i "") = 1 ∧
    (runFlags ps).2.getD i "" = (runFlags ps).2.getD j "" ∧
    (runFlags ps).2.getD i "" =
      formatFlagIndex (idxOfStr (runFlags ps).1 (ps.getD i "")) := by
  have hmem : ps.getD i "" ∈ ps := by
    rw [List.getD_eq_getElem ps "" hi]
    exact List.getElem_mem hi
  have hnd := runFlagsFrom_nodup ps [] List.nodup_nil
  have hin : ps.getD i "" ∈ (runFlagsFrom [] ps).1 :=
    (runFlagsFrom_mem ps [] _).mpr (Or.inr hmem)
  obtain ⟨_, hget⟩ := runFlagsFrom_markers ps []
  refine ⟨List.count_eq_one_of_mem hnd hin, ?_, hget i hi⟩
  show (runFlagsFrom [] ps).2.getD i "" = (runFlagsFrom [] ps).2.getD j ""
  rw [hget i hi, hget j hj, hsame]

/-- Witness for C5: the run `["A", "B", "A"]` with the duplicate payload
at positions 0 and 2. -/
theorem c5_flag_dedup_witness :
    (runFlags ["A", "B", "A"]).1.count (["A", "B", "A"].getD 0 "") = 1 ∧
    (runFlags ["A", "B", "A"]).2.getD 0 "" = (runFlags ["A", "B", "A"]).2.getD 2 "" ∧
    (runFlags ["A", "B", "A"]).2.getD 0 "" =
      formatFlagIndex (idxOfStr (runFlags ["A", "B", "A"]).1
        (["A", "B", "A"].getD 0 "")) :=
  c5_flag_dedup ["A", "B", "A"] 0 2 (by decide) (by decide) (by decide)

theorem ordering_then_swap (o p : Ordering) : (o.then p).swap = o.swap.then p.swap := by
  cases o <;> rfl

theorem cmpChars_swap (a : List Char) : ∀ b, (cmpChars a b).swap = cmpChars b a := by
  induction a with
  | nil => intro b; cases b <;> rfl
  | cons c cs ih =>
    intro b
    cases b with
    | nil => rfl
    | cons d ds =>
      show ((compare c d).then (cmpChars cs ds)).swap = (compare d c).then (cmpChars ds cs)
      rw [ordering_then_swap, ih ds, Batteries.OrientedCmp.symm c d]

theorem collCmp_swap (a : List (Nat ⊕ Char)) : ∀ b, (collCmp a b).swap = collCmp b a := by
  induction a with
  | nil =>
    intro b
    cases b with
    | nil => rfl
    | cons u us => cases u <;> rfl
  | cons t ts ih =>
    intro b
    cases b with
    | nil => cases t <;> rfl
    | cons u us =>
      cases t with
      | inl m =>
        cases u with
        | inl n =>
          show ((compare m n).then (collCmp ts us)).swap = (compare n m).then (collCmp us ts)
          rw [ordering_then_swap, ih us, Nat.compare_swap]
        | inr d => rfl
      | inr c =>
        cases u with
        | inl n => rfl
        | inr d =>
          show ((compare c d).then (collCmp ts us)).swap = (compare d c).then (collCmp us ts)
          rw [ordering_then_swap, ih us, Batteries.OrientedCmp.symm c d]

/-- Inserting into a locally sorted list keeps it locally sorted, given a
total relation. -/
theorem chain'_orderedInsert {α : Type} (r : α → α → Prop) [DecidableRel r]
    (total : ∀ a b, r a b ∨ r b a) (a : α) :
    ∀ l : List α, l.Chain' r → (l.orderedInsert r a).Chain' r := by
  intro l
  induction l with
  | nil => intro _; simp [List.orderedInsert]
  | cons b bs ih =>
    intro h
    rw [List.orderedInsert]
    split
    · exact List.chain'_cons.mpr ⟨by assumption, h⟩
    · rename_i hnab
      have hba : r b a := (total a b).resolve_left hnab
      rw [List.chain'_cons'] at h
      apply List.chain'_cons'.mpr
      refine ⟨?_, ih h.2⟩
      intro y hy
      cases bs with
      | nil =>
        simp [List.orderedInsert] at hy
        subst hy
        exact hba
      | cons c cs =>
        rw [List.orderedInsert] at hy
        split at hy
        · simp at hy
          subst hy
          exact hba
        · simp at hy
          subst hy
          exact h.1 c rfl

/-- The insertion sort of a total relation is locally sorted. -/
theorem chain'_insertionSort {α : Type} (r : α → α → Prop) [DecidableRel r]
    (total : ∀ a b, r a b ∨ r b a) (l : List α) :
    (l.insertionSort r).Chain' r := by
  induction l with
  | nil => simp [List.insertionSort]
  | cons x xs ih => exact chain'_orderedInsert r total x _ ih

/-- Transfer a `Chain'` along an implication that holds on members. -/
theorem chain'_imp_mem {α : Type} {l : List α} {R S : α → α → Prop}
    (h : l.Chain' R) (hi : ∀ a ∈ l, ∀ b ∈ l, R a b → S a b) : l.Chain' S := by
  induction l with
  | nil => simp
  | cons x xs ih =>
    rw [List.chain'_cons'] at h ⊢
    refine ⟨?_, ih h.2 (fun a ha b hb hr =>
      hi a (List.mem_cons_of_mem _ ha) b (List.mem_cons_of_mem _ hb) hr)⟩
    intro y hy
    have hym : y ∈ xs := by
      cases xs with
      | nil => simp at hy
      | cons z zs => simp at hy; rw [hy]; exact List.mem_cons_self _ _
    exact hi x (List.mem_cons_self _ _) y (List.mem_cons_of_mem _ hym) (h.1 y hy)

theorem decStrLe_total (a b : Nat) : decStrLe a b ∨ decStrLe b a := by
  unfold decStrLe
  by_cases h : cmpChars (natDecStr a).data (natDecStr b).data = .gt
  · right
    rw [← cmpChars_swap, h]
    decide
  · exact Or.inl h

theorem registerNote_registry (reg : List String) (p : String) :
    (registerNote reg p).1 = if p ∈ reg then reg else reg ++ [p] := rfl

theorem noteStep_mem (acc : List String × List Nat) (n : JsonVal) (s : String)
    (h : s ∈ acc.1) : s ∈ (noteStep acc n).1 := by
  show s ∈ (registerNote acc.1 (jsonStringify n)).1
  rw [registerNote_registry]
  split
  · exact h
  · exact List.mem_append_left _ h

theorem noteFold_mem_mono (notes : List JsonVal) :
    ∀ (acc : List String × List Nat) (s : String), s ∈ acc.1 →
      s ∈ (notes.foldl noteStep acc).1 := by
  induction notes with
  | nil => intro acc s h; simpa using h
  | cons n ns ih =>
    intro acc s h
    rw [List.foldl_cons]
    exact ih _ s (noteStep_mem acc n s h)

theorem noteFold_registers (notes : List JsonVal) :
    ∀ (acc : List String × List Nat) (v : JsonVal), v ∈ notes →
      jsonStringify v ∈ (notes.foldl noteStep acc).1 := by
  induction notes with
  | nil => intro acc v h; simp at h
  | cons n ns ih =>
    intro acc v h
    rw [List.foldl_cons]
    rcases List.mem_cons.mp h with h1 | h1
    · subst h1
      apply noteFold_mem_mono
      show jsonStringify v ∈ (registerNote acc.1 (jsonStringify v)).1
      rw [registerNote_registry]
      split
      · assumption
      · simp
    · exact ih _ v h1

theorem noteFold_nodup (notes : List JsonVal) :
    ∀ (acc : List String × List Nat), acc.1.Nodup →
      (notes.foldl noteStep acc).1.Nodup := by
  induction notes with
  | nil => intro acc h; simpa using h
  | cons n ns ih =>
    intro acc h
    rw [List.foldl_cons]
    apply ih
    show ((registerNote acc.1 (jsonStringify n)).1).Nodup
    rw [registerNote_registry]
    split
    · exact h
    · simp [List.nodup_append, h]
      assumption

/-- All decimal-string comparisons of indices below 10 agree with the
numeric order. -/
theorem decStrLe_below_ten :
    ∀ a, a < 10 → ∀ b, b < 10 → (decStrLe a b ↔ a ≤ b) := by
  decide

/-- C2 counterexample: with eleven notes already registered, a statement
carrying the notes with registry indices 10 and 2 renders its markers as
`[^n11],[^n3]` — the order produced by JavaScript's comparator-less
`sort()` (which compares the indices as strings, "10" before "2"), not
the ascending numeric order `[^n3],[^n11]` the claim asserts. -/
theorem c2_note_order_counterexample :
    (processNotes
      ["\"a0\"", "\"a1\"", "\"a2\"", "\"a3\"", "\"a4\"", "\"a5\"", "\"a6\"",
       "\"a7\"", "\"a8\"", "\"a9\"", "\"a10\""]
      [.str "a10", .str "a2"]).2 = "[^n11],[^n3]" ∧
    (processNotes
      ["\"a0\"", "\"a1\"", "\"a2\"", "\"a3\"", "\"a4\"", "\"a5\"", "\"a6\"",
       "\"a7\"", "\"a8\"", "\"a9\"", "\"a10\""]
      [.str "a10", .str "a2"]).2 ≠ "[^n3],[^n11]" := by
  constructor
  · decide
  · decide

/-- C2 as amended: every note registers with deduplication by serialized
equality, and the statement's `notes` field becomes the comma-joined
markers of the registered indices sorted in ascending lexicographic order
of their decimal strings (JavaScript's default sort); that order
coincides with ascending numeric order exactly when comparing decimal
strings agrees with comparing values, in particular whenever all the
indices are below 10. -/
theorem c2_note_order_amended (allNotes : List String) (notes : List JsonVal) :
    (∀ v ∈ notes, jsonStringify v ∈ (noteIndicesRaw allNotes notes).1) ∧
    (allNotes.Nodup → (noteIndicesRaw allNotes notes).1.Nodup) ∧
    (processNotes allNotes notes).2 = String.intercalate ","
      ((jsDefaultSortNats (noteIndicesRaw allNotes notes).2).map formatNoteIndex) ∧
    List.Perm (jsDefaultSortNats (noteIndicesRaw allNotes notes).2)
      (noteIndicesRaw allNotes notes).2 ∧
    List.Chain' decStrLe (jsDefaultSortNats (noteIndicesRaw allNotes notes).2) ∧
    ((∀ k ∈ (noteIndicesRaw allNotes notes).2, k < 10) →
      List.Chain' (· ≤ ·) (jsDefaultSortNats (noteIndicesRaw allNotes notes).2)) := by
  refine ⟨?_, ?_, rfl, ?_, ?_, ?_⟩
  · intro v hv
    exact noteFold_registers notes (allNotes, []) v hv
  · intro hnd
    exact noteFold_nodup notes (allNotes, []) hnd
  · exact List.perm_insertionSort decStrLe _
  · exact chain'_insertionSort decStrLe decStrLe_total _
  · intro hsmall
    have hperm := List.perm_insertionSort decStrLe
      (noteIndicesRaw allNotes notes).2
    apply chain'_imp_mem (chain'_insertionSort decStrLe decStrLe_total _)
    intro a ha b hb hr
    have ha' : a ∈ (noteIndicesRaw allNotes notes).2 := hperm.mem_iff.mp ha
    have hb' : b ∈ (noteIndicesRaw allNotes notes).2 := hperm.mem_iff.mp hb
    exact (decStrLe_below_ten a (hsmall a ha') b (hsmall b hb')).mp hr

/-- Witness for C2's amended statement at a run with a duplicate note and
single-digit indices. -/
theorem c2_note_order_amended_witness :
    (∀ v ∈ [JsonVal.str "x", JsonVal.str "y", JsonVal.str "x"],
      jsonStringify v ∈ (noteIndicesRaw ["\"p\""]
        [JsonVal.str "x", JsonVal.str "y", JsonVal.str "x"]).1) ∧
    (List.Nodup ["\"p\""] → (noteIndicesRaw ["\"p\""]
      [JsonVal.str "x", JsonVal.str "y", JsonVal.str "x"]).1.Nodup) ∧
    (processNotes ["\"p\""] [JsonVal.str "x", JsonVal.str "y", JsonVal.str "x"]).2 =
      String.intercalate "," ((jsDefaultSortNats (noteIndicesRaw ["\"p\""]
        [JsonVal.str "x", JsonVal.str "y", JsonVal.str "x"]).2).map formatNoteIndex) ∧
    List.Perm (jsDefaultSortNats (noteIndicesRaw ["\"p\""]
        [JsonVal.str "x", JsonVal.str "y", JsonVal.str "x"]).2)
      (noteIndicesRaw ["\"p\""] [JsonVal.str "x", JsonVal.str "y", JsonVal.str "x"]).2 ∧
    List.Chain' decStrLe (jsDefaultSortNats (noteIndicesRaw ["\"p\""]
      [JsonVal.str "x", JsonVal.str "y", JsonVal.str "x"]).2) ∧
    ((∀ k ∈ (noteIndicesRaw ["\"p\""]
        [JsonVal.str "x", JsonVal.str "y", JsonVal.str "x"]).2, k < 10) →
      List.Chain' (· ≤ ·) (jsDefaultSortNats (noteIndicesRaw ["\"p\""]
        [JsonVal.str "x", JsonVal.str "y", JsonVal.str "x"]).2)) :=
  c2_note_order_amended ["\"p\""] [JsonVal.str "x", JsonVal.str "y", JsonVal.str "x"]

theorem stripAnsiCompare_total (a b : String) :
    stripAnsiCompare a b ≠ .gt ∨ stripAnsiCompare b a ≠ .gt := by
  by_cases h : stripAnsiCompare a b = .gt
  · right
    unfold stripAnsiCompare localeCompareModel at h ⊢
    rw [← cmpChars_swap, h]
    decide
  · exact Or.inl h

theorem naturalCompare_total (a b : String) :
    naturalCompare a b ≠ .gt ∨ naturalCompare b a ≠ .gt := by
  by_cases h : naturalCompare a b = .gt
  · right
    unfold naturalCompare at h ⊢
    rw [← collCmp_swap, h]
    decide
  · exact Or.inl h

/-- C4 counterexample: in the main variant, three merged blocks whose
first change descriptions begin with the numeric segments "2", "10", "1"
come out of the final value-grouped sort in the lexicographic order
1, 10, 2 (plain `localeCompare` has no numeric awareness), not the
natural order 1, 2, 10 the claim asserts. -/
theorem c4_collation_counterexample :
    (sortEntriesMain [("[\"p1\"]", ["2"]), ("[\"p2\"]", ["10"]),
      ("[\"p3\"]", ["1"])]).map (fun e => e.2.headD "") = ["1", "10", "2"] ∧
    (sortEntriesMain [("[\"p1\"]", ["2"]), ("[\"p2\"]", ["10"]),
      ("[\"p3\"]", ["1"])]).map (fun e => e.2.headD "") ≠ ["1", "2", "10"] := by
  constructor
  · decide
  · decide

/-- C4 as amended: only the v3 variant sorts the merged blocks by the
natural, case-insensitive, numeric-aware collation of the first change
description (ANSI codes stripped), ordering the numeric segments "2",
"10", "1" as 1, 2, 10; the main variant sorts by plain `localeCompare`
of the stripped descriptions, which orders them lexicographically as
1, 10, 2.  Both sorts permute the merged blocks and leave them locally
ordered by their own comparator. -/
theorem c4_collation_amended :
    ((sortEntriesV3 [("[\"p1\"]", ["2"]), ("[\"p2\"]", ["10"]),
      ("[\"p3\"]", ["1"])]).map (fun e => e.2.headD "") = ["1", "2", "10"]) ∧
    (∀ entries : List (String × List String),
      List.Perm (sortEntriesV3 entries) entries) ∧
    (∀ entries : List (String × List String),
      (sortEntriesV3 entries).Chain'
        (fun e1 e2 => naturalCompare (entrySortKey e1) (entrySortKey e2) ≠ .gt)) ∧
    (∀ entries : List (String × List String),
      List.Perm (sortEntriesMain entries) entries) ∧
    (∀ entries : List (String × List String),
      (sortEntriesMain entries).Chain'
        (fun (e1 e2 : String × List String) =>
          stripAnsiCompare (e1.2.headD "") (e2.2.headD "") ≠ .gt)) := by
  refine ⟨by decide, ?_, ?_, ?_, ?_⟩
  · intro entries
    exact List.perm_insertionSort _ _
  · intro entries
    exact chain'_insertionSort _
      (fun e1 e2 => naturalCompare_total (entrySortKey e1) (entrySortKey e2)) _
  · intro entries
    exact List.perm_insertionSort _ _
  · intro entries
    exact chain'_insertionSort _
      (fun (e1 e2 : String × List String) =>
        stripAnsiCompare_total (e1.2.headD "") (e2.2.headD "")) _

/-- C1 counterexample: the main variant's normalizer composes
`version_added: "1", version_removed: "2"` into the two space-joined
parts `1+ −2` — it renders `<version_added>+` unconditionally and the
removal as a separate `−<version_removed>` part — not into the single
range `1−2` the claim asserts for a present removal version. -/
theorem c1_version_compose_counterexample :
    composeVersionMain [("version_added", .str "1"),
      ("version_removed", .str "2")] = "1+ −2" ∧
    composeVersionMain [("version_added", .str "1"),
      ("version_removed", .str "2")] ≠ "1−2" := by
  constructor
  · decide
  · decide

/-- A field list of a support statement with the given string
`version_added`, optional string fields and boolean
`partial_implementation`, as the v3 normalizer sees it after the flag and
note substitutions. -/
def optField (k : String) : Option String → List (String × JsonVal)
  | some s => [(k, JsonVal.str s)]
  | none => []

/-- Builder for the statement field lists quantified over in C1. -/
def mkStmtFieldsV3 (va : String) (vl : Option String) (pim : Bool)
    (fl pf an no : Option String) : List (String × JsonVal) :=
  [("version_added", JsonVal.str va)] ++ optField "version_last" vl ++
    (if pim then [("partial_implementation", JsonVal.bool true)] else []) ++
    optField "flags" fl ++ optField "prefix" pf ++
    optField "alternative_name" an ++ optField "notes" no

/-- An empty part is dropped from the composite version string. -/
def specPart (s : String) : Option String :=
  if s.isEmpty then none else some s

/-- Modelled from the spec (§4.1): the composite `version` string —
`<version_added>−<version_last>` when a last version is present,
`<version_added>+` when open-ended, then `(partial)` when
`partial_implementation` is set, then the flag footnote reference, then
`prefix=<prefix>`, then `altname=<alternative_name>`, then the notes
footnote reference, space-joined with empty (falsy) parts dropped. -/
def composeVersionSpec (va : String) (vl : Option String) (pim : Bool)
    (fl pf an no : Option String) : String :=
  String.intercalate " " (([
    specPart (match vl with | some l => va ++ "−" ++ l | none => va ++ "+"),
    (if pim then some "(partial)" else none),
    fl,
    pf.map (fun p => "prefix=" ++ p),
    an.map (fun a => "altname=" ++ a),
    no]).filterMap id)

/-- C1 as amended: the v3 variant composes the version string exactly as
the claim orders it, for a string `version_added` and nonempty optional
parts; a non-string `version_added` instead renders as its bare
`String(...)` conversion with no `+` suffix.  The main variant diverges:
it always renders a truthy `version_added` as `<version_added>+` and a
present `version_removed` as the separate part `−<version_removed>`. -/
theorem c1_version_compose_amended :
    (∀ (va : String) (vl : Option String) (pim : Bool)
      (fl pf an no : Option String),
      (∀ s, fl = some s → s.isEmpty = false) →
      (∀ s, pf = some s → s.isEmpty = false) →
      (∀ s, an = some s → s.isEmpty = false) →
      (∀ s, no = some s → s.isEmpty = false) →
      composeVersionV3 (mkStmtFieldsV3 va vl pim fl pf an no) =
        composeVersionSpec va vl pim fl pf an no) ∧
    (∀ (va vr : String), va.isEmpty = false → vr.isEmpty = false →
      composeVersionMain [("version_added", JsonVal.str va),
        ("version_removed", JsonVal.str vr)] = va ++ "+ −" ++ vr) ∧
    (∀ b : Bool, composeVersionV3 [("version_added", JsonVal.bool b)] =
      (if b then "true" else "false")) := by
  refine ⟨?_, ?_, ?_⟩
  · intro va vl pim fl pf an no hfl hpf han hno
    cases vl <;> cases pim <;> cases fl <;> cases pf <;> cases an <;> cases no <;>
      simp_all [composeVersionV3, composeVersionSpec, mkStmtFieldsV3, optField,
        getFieldD, getField?, partsJoin, jsTemplate, JsonVal.truthy, specPart,
        String.intercalate]
  · intro va vr hva hvr
    simp [composeVersionMain, getFieldD, getField?, partsJoin, jsTemplate,
      JsonVal.truthy, hva, hvr, String.intercalate]
    rw [show ("+ −" : String) = "+" ++ (" " ++ "−") from rfl]
    simp [String.intercalate.go, String.append_assoc]
    congr 1
  · intro b
    cases b <;> decide

/-- Witness for C1's amended statement at concrete statements of both
variants. -/
theorem c1_version_compose_amended_witness :
    composeVersionV3 (mkStmtFieldsV3 "1" (some "2") true (some "[^f1]")
        none none none) =
      composeVersionSpec "1" (some "2") true (some "[^f1]") none none none ∧
    composeVersionMain [("version_added", JsonVal.str "3"),
      ("version_removed", JsonVal.str "4")] = "3" ++ "+ −" ++ "4" ∧
    composeVersionV3 [("version_added", JsonVal.bool true)] =
      (if true then "true" else "false") :=
  ⟨c1_version_compose_amended.1 "1" (some "2") true (some "[^f1]") none none none
      (fun s h => by simp at h; subst h; decide)
      (fun s h => nomatch h) (fun s h => nomatch h) (fun s h => nomatch h),
   c1_version_compose_amended.2.1 "3" "4" (by decide) (by decide),
   c1_version_compose_amended.2.2 true⟩

/-- C3 counterexample: in the main variant a key absent on the base side
(`null`) whose head value is the string "false" is NOT skipped — the
`hasValue` test treats the string "false" as relevant, so the key emits a
change line showing the new value in green. -/
theorem c3_null_to_false_counterexample :
    changeValueMain none (some (JsonVal.str "false")) =
      some ("\x1b[32m\"false\"\x1b[39m") ∧
    changeValueMain none (some (JsonVal.str "false")) ≠ none := by
  constructor
  · decide
  · decide

/-- C3 as amended: the transition from an absent (`null`) base value is
skipped (empty display string, zero change lines) for a head value of
"mirror" in both variants, but for the string "false" only in the v3
variant, which tests the serialized head value against `"mirror"` and
`"false"` explicitly; the main variant's `hasValue` only filters
"mirror". -/
theorem c3_null_sentinel_amended :
    changeValueV3 none (some (JsonVal.str "mirror")) = none ∧
    changeValueV3 none (some (JsonVal.str "false")) = none ∧
    changeValueMain none (some (JsonVal.str "mirror")) = none := by
  refine ⟨by decide, by decide, by decide⟩

/-- C7: the strict variants warn on `A` (added) and `D` (deleted)
statuses and contribute no change lines for such a file, while the
permissive variant substitutes an empty object for the missing side —
whose flattening is empty, so every key of such a file diffs against an
absent base (everything-new) or absent head (everything-removed). -/
theorem c7_added_deleted_files :
    (∀ changes : List String,
      strictFileChanges "A" changes = [] ∧ strictFileChanges "D" changes = []) ∧
    strictFileAction "A" =
      StrictAction.warn "diff:flat doesn\x27t support file additions yet!" ∧
    strictFileAction "D" =
      StrictAction.warn "diff:flat doesn\x27t support file deletions yet!" ∧
    (∀ changes : List String, strictFileChanges "M" changes = changes) ∧
    (∀ b h : JsonVal, permissiveContents "A" b h = (JsonVal.obj [], h)) ∧
    (∀ b h : JsonVal, permissiveContents "D" b h = (b, JsonVal.obj [])) ∧
    (∀ (var : Variant) (st : FlatState),
      flattenObject var (JsonVal.obj []) st = some st) := by
  refine ⟨?_, rfl, rfl, ?_, ?_, ?_, ?_⟩
  · intro changes
    exact ⟨rfl, rfl⟩
  · intro changes
    rfl
  · intro b h
    rfl
  · intro b h
    rfl
  · intro var st
    simp [flattenObject, flattenFields]

/-- The documented well-formedness contract of a `diffArrays` output with
respect to its old and new sequences: the non-added parts concatenate to
the old sequence, the non-removed parts to the new sequence, and no part
is flagged both ways. -/
def DiffWF (old new : List String) (parts : List DiffPart) : Prop :=
  ((parts.filter (fun p => !p.added)).map DiffPart.value).flatten = old ∧
  ((parts.filter (fun p => !p.removed)).map DiffPart.value).flatten = new ∧
  ∀ p ∈ parts, ¬(p.added = true ∧ p.removed = true)

theorem commonPrefixL_spec (xs : List String) : ∀ ys,
    xs = (commonPrefixL xs ys).1 ++ (commonPrefixL xs ys).2.1 ∧
    ys = (commonPrefixL xs ys).1 ++ (commonPrefixL xs ys).2.2 := by
  induction xs with
  | nil =>
    intro ys
    cases ys <;> simp [commonPrefixL]
  | cons x xs' ih =>
    intro ys
    cases ys with
    | nil => simp [commonPrefixL]
    | cons y ys' =>
      rw [commonPrefixL]
      split
      · rename_i hxy
        obtain ⟨h1, h2⟩ := ih ys'
        constructor
        · simpa using h1
        · simpa [← hxy] using h2
      · simp

theorem filter_sublist_of_imp {α : Type} (p q : α → Bool) :
    ∀ l : List α, (∀ a ∈ l, p a = true → q a = true) →
      List.Sublist (l.filter p) (l.filter q) := by
  intro l
  induction l with
  | nil => intro _; simp
  | cons x xs ih =>
    intro h
    by_cases hx : p x = true
    · rw [List.filter_cons_of_pos hx,
        List.filter_cons_of_pos (h x (List.mem_cons_self _ _) hx)]
      exact List.Sublist.cons₂ x (ih (fun a ha => h a (List.mem_cons_of_mem _ ha)))
    · rw [List.filter_cons_of_neg (by simpa using hx)]
      by_cases hq : q x = true
      · rw [List.filter_cons_of_pos hq]
        exact List.Sublist.cons x (ih (fun a ha => h a (List.mem_cons_of_mem _ ha)))
      · rw [List.filter_cons_of_neg (by simpa using hq)]
        exact ih (fun a ha => h a (List.mem_cons_of_mem _ ha))

theorem flatten_sublist_of_sublist {α : Type} {l1 l2 : List (List α)}
    (h : List.Sublist l1 l2) : List.Sublist l1.flatten l2.flatten := by
  induction h with
  | slnil => simp
  | cons a _ ih =>
    show List.Sublist _ (a ++ _)
    exact ih.trans (List.sublist_append_right a _)
  | cons₂ a _ ih =>
    show List.Sublist (a ++ _) (a ++ _)
    exact ih.append_left a

theorem diffArraysCore_wf (pre o2 n2 suf : List String) :
    DiffWF (pre ++ (o2 ++ suf)) (pre ++ (n2 ++ suf))
      (diffArraysCore pre o2 n2 suf) := by
  unfold DiffWF diffArraysCore
  refine ⟨?_, ?_, ?_⟩ <;>
    by_cases hp : pre.isEmpty <;> by_cases ho : o2.isEmpty <;>
    by_cases hn : n2.isEmpty <;> by_cases hs : suf.isEmpty <;>
    simp_all [List.isEmpty_iff]

theorem diffArraysCore_chain (pre o2 n2 suf : List String) :
    (diffArraysCore pre o2 n2 suf).Chain'
      (fun p q => ¬(p.added = true ∧ q.removed = true)) := by
  unfold diffArraysCore
  by_cases hp : pre.isEmpty <;> by_cases ho : o2.isEmpty <;>
    by_cases hn : n2.isEmpty <;> by_cases hs : suf.isEmpty <;>
    simp_all [List.isEmpty_iff, List.chain'_cons, List.chain'_singleton]

theorem diffArrays_decomp (old new : List String) :
    old = (commonPrefixL old new).1 ++
      (((commonPrefixL (commonPrefixL old new).2.1.reverse
        (commonPrefixL old new).2.2.reverse).2.1.reverse) ++
      ((commonPrefixL (commonPrefixL old new).2.1.reverse
        (commonPrefixL old new).2.2.reverse).1.reverse)) ∧
    new = (commonPrefixL old new).1 ++
      (((commonPrefixL (commonPrefixL old new).2.1.reverse
        (commonPrefixL old new).2.2.reverse).2.2.reverse) ++
      ((commonPrefixL (commonPrefixL old new).2.1.reverse
        (commonPrefixL old new).2.2.reverse).1.reverse)) := by
  obtain ⟨h1, h2⟩ := commonPrefixL_spec old new
  obtain ⟨h3, h4⟩ := commonPrefixL_spec (commonPrefixL old new).2.1.reverse
    (commonPrefixL old new).2.2.reverse
  constructor
  · conv_lhs => rw [h1]
    congr 1
    have := congrArg List.reverse h3
    simpa [List.reverse_append] using this
  · conv_lhs => rw [h2]
    congr 1
    have := congrArg List.reverse h4
    simpa [List.reverse_append] using this

/-- The model `diffArrays` satisfies the library contract. -/
theorem diffArrays_wf (old new : List String) :
    DiffWF old new (diffArrays old new) := by
  obtain ⟨h1, h2⟩ := diffArrays_decomp old new
  have := diffArraysCore_wf (commonPrefixL old new).1
    ((commonPrefixL (commonPrefixL old new).2.1.reverse
      (commonPrefixL old new).2.2.reverse).2.1.reverse)
    ((commonPrefixL (commonPrefixL old new).2.1.reverse
      (commonPrefixL old new).2.2.reverse).2.2.reverse)
    ((commonPrefixL (commonPrefixL old new).2.1.reverse
      (commonPrefixL old new).2.2.reverse).1.reverse)
  rw [← h1, ← h2] at this
  exact this

theorem intercalate_pair (sep a b : String) :
    String.intercalate sep [a, b] = a ++ sep ++ b := by
  simp [String.intercalate, String.intercalate.go, String.append_assoc]

theorem changeValueArrow_renders (bv hv : Option JsonVal)
    (hbv : hasValue (bv.getD .null) = true) (hhv : hasValue (hv.getD .null) = true)
    (hne : jsonStringifyD bv ≠ jsonStringifyD hv) :
    changeValueArrow bv hv = some (chalkRed (jsonStringifyD bv) ++ " → " ++
      chalkGreen (jsonStringifyD hv)) := by
  unfold changeValueArrow
  rw [if_neg hne]
  simp only [hbv, hhv, if_true]
  have hfm : ([some (chalkRed (jsonStringifyD bv)),
      some (chalkGreen (jsonStringifyD hv))].filterMap id) =
      [chalkRed (jsonStringifyD bv), chalkGreen (jsonStringifyD hv)] := by simp
  rw [hfm, intercalate_pair, if_neg ?_]
  intro hEq
  have hdata : (chalkRed (jsonStringifyD bv) ++ " → " ++
      chalkGreen (jsonStringifyD hv)).data = ("" : String).data :=
    congrArg String.data hEq
  have : (chalkRed (jsonStringifyD bv)).data ++ (" → " : String).data ++
      (chalkGreen (jsonStringifyD hv)).data = [] := hdata
  simp at this

/-- C8: the grouped renderer computes the value diff with the head token
list as the diff library's old sequence and the base token list as the
new sequence (see `changeValueMain`), so under the library contract the
parts flagged removed carry head-side tokens and are rendered first in
green, the parts flagged added carry base-side tokens and are rendered
after them in red, concatenated with no arrow; the model differ satisfies
that contract and never emits an added part directly before a removed
part.  The ungrouped arrow variant instead renders
`red(old) → green(new)` with an explicit arrow. -/
theorem c8_value_diff_orientation :
    (∀ old new : List String, DiffWF old new (diffArrays old new)) ∧
    (∀ old new : List String, (diffArrays old new).Chain'
      (fun p q => ¬(p.added = true ∧ q.removed = true))) ∧
    (∀ (old new : List String) (parts : List DiffPart), DiffWF old new parts →
      List.Sublist ((parts.filter (fun p => p.removed)).map DiffPart.value).flatten old ∧
      List.Sublist ((parts.filter (fun p => p.added)).map DiffPart.value).flatten new) ∧
    changeValueMain (some (.str "10+")) (some (.str "20+")) =
      some ("\"" ++ chalkGreen "20+" ++ chalkRed "10+" ++ "\"") ∧
    (∀ bv hv : Option JsonVal, hasValue (bv.getD .null) = true →
      hasValue (hv.getD .null) = true →
      jsonStringifyD bv ≠ jsonStringifyD hv →
      changeValueArrow bv hv = some (chalkRed (jsonStringifyD bv) ++ " → " ++
        chalkGreen (jsonStringifyD hv))) := by
  refine ⟨diffArrays_wf, ?_, ?_, by decide, changeValueArrow_renders⟩
  · intro old new
    exact diffArraysCore_chain _ _ _ _
  · intro old new parts hwf
    obtain ⟨hold, hnew, hboth⟩ := hwf
    constructor
    · rw [← hold]
      apply flatten_sublist_of_sublist
      apply List.Sublist.map
      apply filter_sublist_of_imp
      intro p hp hrem
      have := hboth p hp
      cases hadd : p.added
      · rfl
      · exact absurd ⟨hadd, hrem⟩ this
    · rw [← hnew]
      apply flatten_sublist_of_sublist
      apply List.Sublist.map
      apply filter_sublist_of_imp
      intro p hp hadd
      have := hboth p hp
      cases hrem : p.removed
      · rfl
      · exact absurd ⟨hadd, hrem⟩ this

/-- Witness for C8 at a concrete pair of support-statement values and a
concrete well-formed parts list. -/
theorem c8_value_diff_orientation_witness :
    DiffWF (splitTokens "\"20+\"") (splitTokens "\"10+\"")
      (diffArrays (splitTokens "\"20+\"") (splitTokens "\"10+\"")) ∧
    List.Sublist ((((diffArrays (splitTokens "\"20+\"") (splitTokens "\"10+\"")).filter
      (fun p => p.removed)).map DiffPart.value).flatten) (splitTokens "\"20+\"") ∧
    changeValueArrow (some (.str "10+")) (some (.str "20+")) =
      some (chalkRed (jsonStringifyD (some (.str "10+"))) ++ " → " ++
        chalkGreen (jsonStringifyD (some (.str "20+")))) :=
  ⟨c8_value_diff_orientation.1 _ _,
   (c8_value_diff_orientation.2.2.1 _ _ _ (c8_value_diff_orientation.1 _ _)).1,
   c8_value_diff_orientation.2.2.2.2 (some (.str "10+")) (some (.str "20+"))
     (by decide) (by decide) (by decide)⟩

theorem substFlags_result (fs : List (String × JsonVal)) (st : FlatState) :
    (substFlags fs st).2.result = st.result := by
  unfold substFlags
  cases getField? fs "flags" <;> rfl

theorem substNotes_result (fs : List (String × JsonVal)) (st : FlatState) :
    (substNotes fs st).2.result = st.result := by
  unfold substNotes
  cases getField? fs "notes" <;> rfl

theorem normalizeVersion_result (var : Variant) (fs : List (String × JsonVal))
    (st : FlatState) : (normalizeVersion var fs st).2.result = st.result := by
  unfold normalizeVersion
  split
  · rw [substNotes_result, substFlags_result]
  · rfl

theorem normalizeFields_result (var : Variant) (fs nf : List (String × JsonVal))
    (st st1 : FlatState) (h : normalizeFields var fs st = some (nf, st1)) :
    st1.result = st.result := by
  unfold normalizeFields at h
  cases h1 : normalizeStatus fs with
  | none => rw [h1] at h; simp at h
  | some f1 =>
    rw [h1] at h
    simp only [Option.bind_eq_bind, Option.some_bind] at h
    cases h2 : normalizeTags f1 with
    | none => rw [h2] at h; simp at h
    | some f2 =>
      rw [h2] at h
      simp only [Option.bind_eq_bind, Option.some_bind, Option.some.injEq] at h
      have : st1 = (normalizeVersion var f2 st).2 := by rw [h]
      rw [this, normalizeVersion_result]

theorem flattenFields_scalar_invariant (var : Variant) :
    ∀ (fs : List (String × JsonVal)) (pk : String) (st : FlatState),
      ∀ st', flattenFields var fs pk st = some st' →
        ∀ kv ∈ st'.result, kv ∈ st.result ∨ kv.2.isScalar = true := by
  intro fs pk st
  induction fs, pk, st using flattenFields.induct var with
  | case1 pk st =>
    intro st' heq kv hkv
    rw [flattenFields.eq_def] at heq
    simp only at heq
    cases heq
    exact Or.inl hkv
  | case2 pk st k v rest fullKey hm assignedKey ih =>
    intro st' heq kv hkv
    rw [flattenFields.eq_def] at heq
    simp only at heq
    rw [if_pos hm] at heq
    rcases ih st' heq kv hkv with h | h
    · simp only [List.mem_append, List.mem_singleton] at h
      rcases h with h1 | h1
      · exact Or.inl h1
      · right
        rw [h1]
        rfl
    · exact Or.inr h
  | case3 pk st k rest fields hnone hnm =>
    intro st' heq kv hkv
    rw [flattenFields.eq_def] at heq
    simp only at heq
    rw [if_neg hnm] at heq
    rw [hnone] at heq
    simp at heq
  | case4 pk st k rest fields nf2 st2 hn1 hB hn2 hnm =>
    intro st' heq kv hkv
    rw [flattenFields.eq_def] at heq
    simp only at heq
    rw [if_neg hnm] at heq
    rw [hn1] at heq
    simp only at heq
    rw [if_pos hB] at heq
    rw [hn2] at heq
    simp at heq
  | case5 pk st k rest fullKey fields nf2 st2 hn1 hB nf21 st21 hn2 hflat hnm ih =>
    intro st' heq kv hkv
    rw [flattenFields.eq_def] at heq
    simp only at heq
    rw [if_neg hnm] at heq
    rw [hn1] at heq
    simp only at heq
    rw [if_pos hB] at heq
    rw [hn2] at heq
    simp only at heq
    rw [hflat] at heq
    simp at heq
  | case6 pk st k rest fullKey fields nf2 st2 hn1 hB nf21 st21 hn2 st3 hflat hnm ih1 ih2 =>
    intro st' heq kv hkv
    rw [flattenFields.eq_def] at heq
    simp only at heq
    rw [if_neg hnm] at heq
    rw [hn1] at heq
    simp only at heq
    rw [if_pos hB] at heq
    rw [hn2] at heq
    simp only at heq
    rw [hflat] at heq
    simp only at heq
    rcases ih2 st' heq kv hkv with h | h
    · rcases ih1 st3 hflat kv h with h2 | h2
      · left
        rw [normalizeFields_result var nf2 nf21 st2 st21 hn2,
          normalizeFields_result var fields nf2 st st2 hn1] at h2
        exact h2
      · exact Or.inr h2
    · exact Or.inr h
  | case7 pk st k rest fullKey fields nf2 st2 hn1 hNB hflat hnm ih =>
    intro st' heq kv hkv
    rw [flattenFields.eq_def] at heq
    simp only at heq
    rw [if_neg hnm] at heq
    rw [hn1] at heq
    simp only at heq
    rw [if_neg hNB] at heq
    rw [hflat] at heq
    simp at heq
  | case8 pk st k rest fullKey fields nf2 st2 hn1 hNB st3 hflat hnm ih1 ih2 =>
    intro st' heq kv hkv
    rw [flattenFields.eq_def] at heq
    simp only at heq
    rw [if_neg hnm] at heq
    rw [hn1] at heq
    simp only at heq
    rw [if_neg hNB] at heq
    rw [hflat] at heq
    simp only at heq
    rcases ih2 st' heq kv hkv with h | h
    · rcases ih1 st3 hflat kv h with h2 | h2
      · left
        rw [normalizeFields_result var fields nf2 st st2 hn1] at h2
        exact h2
      · exact Or.inr h2
    · exact Or.inr h
  | case9 pk st k rest fullKey elems target hflat hnm ih =>
    intro st' heq kv hkv
    rw [flattenFields.eq_def] at heq
    simp only at heq
    rw [if_neg hnm] at heq
    have hflat2 : flattenFields var
        (if BROWSER_NAMES.contains k = true then indexFields elems.reverse 0
         else indexFields elems 0) (fullKeyOf pk k) st = none := hflat
    rw [hflat2] at heq
    simp at heq
  | case10 pk st k rest fullKey elems target st3 hflat hnm ih1 ih2 =>
    intro st' heq kv hkv
    rw [flattenFields.eq_def] at heq
    simp only at heq
    rw [if_neg hnm] at heq
    have hflat2 : flattenFields var
        (if BROWSER_NAMES.contains k = true then indexFields elems.reverse 0
         else indexFields elems 0) (fullKeyOf pk k) st = some st3 := hflat
    rw [hflat2] at heq
    simp only at heq
    rcases ih2 st' heq kv hkv with h | h
    · exact ih1 st3 hflat kv h
    · exact Or.inr h
  | case11 pk st k v rest fullKey hnm hno hna ih =>
    intro st' heq kv hkv
    rw [flattenFields.eq_def] at heq
    simp only at heq
    rw [if_neg hnm] at heq
    cases v
    case obj fs2 => exact (hno fs2 rfl).elim
    case arr es => exact (hna es rfl).elim
    all_goals
      rcases ih st' heq kv hkv with h | h
    all_goals
      try exact Or.inr h
    all_goals
      simp only [List.mem_append, List.mem_singleton] at h
    all_goals
      rcases h with h1 | h1
    all_goals
      try exact Or.inl h1
    all_goals
      right
    all_goals
      rw [h1]
    all_goals
      rfl

/-- C10: every value the flattener stores in the result record is a
non-object scalar (string, number, boolean, null or undefined): object
and array values are always normalized and recursed into, never assigned
to a flattened key.  Holds for both the main and the v3 variant, relative
to whatever the initial accumulator already contained. -/
theorem c10_flat_values_scalar (var : Variant) (v : JsonVal)
    (st st' : FlatState) (h : flattenObject var v st = some st') :
    ∀ kv ∈ st'.result, kv ∈ st.result ∨ kv.2.isScalar = true := by
  cases v with
  | obj fields => exact flattenFields_scalar_invariant var fields "" st st' h
  | arr elems => exact flattenFields_scalar_invariant var _ "" st st' h
  | str s => cases h; exact fun kv hkv => Or.inl hkv
  | num n => cases h; exact fun kv hkv => Or.inl hkv
  | bool b => cases h; exact fun kv hkv => Or.inl hkv
  | null => cases h; exact fun kv hkv => Or.inl hkv
  | undefined => cases h; exact fun kv hkv => Or.inl hkv

/-- Witness for C10 at a concrete one-field object and a concrete result
entry. -/
theorem c10_flat_values_scalar_witness :
    ("a", JsonVal.str "x") ∈ (FlatState.mk [] [] []).result ∨
      (("a", JsonVal.str "x") : String × JsonVal).2.isScalar = true :=
  c10_flat_values_scalar Variant.main (JsonVal.obj [("a", JsonVal.str "x")])
    (FlatState.mk [] [] []) (FlatState.mk [] [] [("a", JsonVal.str "x")])
    (by
      show flattenFields Variant.main [("a", JsonVal.str "x")] ""
        (FlatState.mk [] [] []) = some (FlatState.mk [] [] [("a", JsonVal.str "x")])
      rw [flattenFields.eq_def]
      simp [fullKeyOf]
      rw [flattenFields.eq_def])
    ("a", JsonVal.str "x") (by simp)

theorem pruneRegistryAux_length (json : String) (fmt : Nat → String) :
    ∀ (l : List String) (i : Nat), (pruneRegistryAux json fmt l i).length = l.length := by
  intro l
  induction l with
  | nil => intro i; rfl
  | cons c rest ih =>
    intro i
    simp [pruneRegistryAux, ih]

theorem pruneRegistryAux_getD (json : String) (fmt : Nat → String) :
    ∀ (l : List String) (i k : Nat), k < l.length →
      (pruneRegistryAux json fmt l i).getD k "" =
        (if strContains json (fmt (i + k)) then l.getD k "" else "") := by
  intro l
  induction l with
  | nil => intro i k h; simp at h
  | cons c rest ih =>
    intro i k h
    cases k with
    | zero => simp [pruneRegistryAux]
    | succ k' =>
      simp only [pruneRegistryAux, List.getD_cons_succ]
      rw [ih (i + 1) k' (by simpa using h)]
      have : i + 1 + k' = i + (k' + 1) := by omega
      rw [this]

theorem refLinesAux_sound (fmt : Nat → String) (inputs : List String) :
    ∀ (l : List String) (i : Nat) (line : String),
      line ∈ refLinesAux fmt inputs l i →
      ∃ k, k < l.length ∧
        inputs.any (fun input => strContains input (fmt (i + k))) = true ∧
        line = fmt (i + k) ++ ": " ++ l.getD k "" := by
  intro l
  induction l with
  | nil => intro i line h; simp [refLinesAux] at h
  | cons c rest ih =>
    intro i line h
    simp only [refLinesAux] at h
    rcases List.mem_append.mp h with h1 | h1
    · by_cases hc : inputs.any (fun input => strContains input (fmt i)) = true
      · rw [if_pos hc] at h1
        simp only [List.mem_singleton] at h1
        exact ⟨0, by simp, by simpa using hc, by simpa using h1⟩
      · rw [if_neg hc] at h1
        simp at h1
    · obtain ⟨k, hk, hany, hline⟩ := ih (i + 1) line h1
      refine ⟨k + 1, by simpa using hk, ?_, ?_⟩
      · have : i + (k + 1) = i + 1 + k := by omega
        rw [this]
        exact hany
      · have : i + (k + 1) = i + 1 + k := by omega
        rw [this, hline]
        simp

theorem refLine_flag_eq (i j : Nat) (x y : String)
    (h : formatFlagIndex i ++ ": " ++ x = formatFlagIndex j ++ ": " ++ y) :
    i = j ∧ x = y := by
  have hd : flagMarkerChars i ++ (':' :: ' ' :: x.data) =
      flagMarkerChars j ++ (':' :: ' ' :: y.data) := by
    have := congrArg String.data h
    simpa [formatFlagIndex, List.append_assoc] using this
  unfold flagMarkerChars at hd
  simp only [List.cons_append, List.cons.injEq, true_and] at hd
  rw [List.append_assoc, List.append_assoc] at hd
  have := digits_bracket_cancel (natDecChars (i + 1)) (natDecChars (j + 1))
    (':' :: ' ' :: x.data) (':' :: ' ' :: y.data)
    (natDecChars_digits _) (natDecChars_digits _) (by simpa using hd)
  obtain ⟨h1, h2⟩ := this
  constructor
  · have := natDecChars_inj _ _ h1
    omega
  · simp only [List.cons.injEq, true_and] at h2
    cases x
    cases y
    exact congrArg String.mk (by simpa using h2)

theorem refLine_flag_ne_note (i j : Nat) (x y : String) :
    formatFlagIndex i ++ ": " ++ x ≠ formatNoteIndex j ++ ": " ++ y := by
  intro h
  have hd : flagMarkerChars i ++ (':' :: ' ' :: x.data) =
      noteMarkerChars j ++ (':' :: ' ' :: y.data) := by
    have := congrArg String.data h
    simpa [formatFlagIndex, formatNoteIndex, List.append_assoc] using this
  unfold flagMarkerChars noteMarkerChars at hd
  simp at hd

/-- C6: pruning blanks (sets to the empty string) exactly the registry
entries whose marker does not occur in the serialized final output,
keeping the length — hence every other entry's position and index —
unchanged; and the trailing footnote list contains only lines for entries
whose marker occurs in one of the printed block's inputs, so a flag whose
marker occurs in no printed input (for example one referenced only by a
filtered-out statement) never appears in the printed footnote list. -/
theorem c6_prune_and_refs :
    (∀ (reg : List String) (json : String) (fmt : Nat → String),
      (pruneRegistry reg json fmt).length = reg.length) ∧
    (∀ (reg : List String) (json : String) (fmt : Nat → String) (k : Nat),
      k < reg.length → strContains json (fmt k) = true →
      (pruneRegistry reg json fmt).getD k "" = reg.getD k "") ∧
    (∀ (reg : List String) (json : String) (fmt : Nat → String) (k : Nat),
      k < reg.length → strContains json (fmt k) = false →
      (pruneRegistry reg json fmt).getD k "" = "") ∧
    (∀ (allFlags allNotes inputs : List String) (line : String),
      line ∈ printRefsLines allFlags allNotes inputs →
      (∃ k, k < allFlags.length ∧
        inputs.any (fun input => strContains input (formatFlagIndex k)) = true ∧
        line = formatFlagIndex k ++ ": " ++ allFlags.getD k "") ∨
      (∃ k, k < allNotes.length ∧
        inputs.any (fun input => strContains input (formatNoteIndex k)) = true ∧
        line = formatNoteIndex k ++ ": " ++ allNotes.getD k "")) ∧
    (∀ (allFlags allNotes inputs : List String) (i : Nat), i < allFlags.length →
      (∀ input ∈ inputs, strContains input (formatFlagIndex i) = false) →
      (formatFlagIndex i ++ ": " ++ allFlags.getD i "") ∉
        printRefsLines allFlags allNotes inputs) := by
  refine ⟨?_, ?_, ?_, ?_, ?_⟩
  · intro reg json fmt
    exact pruneRegistryAux_length json fmt reg 0
  · intro reg json fmt k hk hc
    unfold pruneRegistry
    rw [pruneRegistryAux_getD json fmt reg 0 k hk]
    simp [hc]
  · intro reg json fmt k hk hc
    unfold pruneRegistry
    rw [pruneRegistryAux_getD json fmt reg 0 k hk]
    simp [hc]
  · intro allFlags allNotes inputs line h
    unfold printRefsLines at h
    rcases List.mem_append.mp h with h1 | h1
    · left
      obtain ⟨k, hk, hany, hline⟩ := refLinesAux_sound formatFlagIndex inputs
        allFlags 0 line h1
      exact ⟨k, hk, by simpa using hany, by simpa using hline⟩
    · right
      obtain ⟨k, hk, hany, hline⟩ := refLinesAux_sound formatNoteIndex inputs
        allNotes 0 line h1
      exact ⟨k, hk, by simpa using hany, by simpa using hline⟩
  · intro allFlags allNotes inputs i hi hnone hmem
    unfold printRefsLines at hmem
    rcases List.mem_append.mp hmem with h1 | h1
    · obtain ⟨k, hk, hany, hline⟩ := refLinesAux_sound formatFlagIndex inputs
        allFlags 0 _ h1
      obtain ⟨hik, _⟩ := refLine_flag_eq i (0 + k) _ _ hline
      obtain ⟨input, hin, hc⟩ := List.any_eq_true.mp hany
      rw [← hik] at hc
      rw [hnone input hin] at hc
      exact Bool.false_ne_true hc
    · obtain ⟨k, hk, hany, hline⟩ := refLinesAux_sound formatNoteIndex inputs
        allNotes 0 _ h1
      exact refLine_flag_ne_note i (0 + k) _ _ hline

/-- Witness for C6 at a concrete registry, serialized output and block. -/
theorem c6_prune_and_refs_witness :
    (pruneRegistry ["F0", "F1"] "xx [^f2] yy" formatFlagIndex).getD 1 "" =
      (["F0", "F1"] : List String).getD 1 "" ∧
    (pruneRegistry ["F0", "F1"] "xx [^f2] yy" formatFlagIndex).getD 0 "" = "" ∧
    (formatFlagIndex 0 ++ ": " ++ (["F0", "F1"] : List String).getD 0 "") ∉
      printRefsLines ["F0", "F1"] [] ["a [^f2] b"] :=
  ⟨c6_prune_and_refs.2.1 ["F0", "F1"] "xx [^f2] yy" formatFlagIndex 1
      (by decide) (by decide),
   c6_prune_and_refs.2.2.1 ["F0", "F1"] "xx [^f2] yy" formatFlagIndex 0
      (by decide) (by decide),
   c6_prune_and_refs.2.2.2.2 ["F0", "F1"] [] ["a [^f2] b"] 0 (by decide)
      (by intro input hin; simp at hin; rw [hin]; decide)⟩
